import Mathlib

/-!
# Verification of the CinCin reservation-sniping service core

This development is a shallow embedding, in Lean 4, of the time-sensitive core
of the CinCin service (a Go program): booking-window run-time computation,
upstream slot selection, WAF-challenge retry and cookie extraction, the
scheduler loop, the encrypted credential store, and the HTML fallback parser.

Conventions of the embedding:

* A Go `time.Time` is modelled by an `Int`: the instant's Unix time in seconds.
  (The code under verification never inspects sub-second precision.)
* A Go `time.Location` (IANA timezone) is modelled by `GoLocation`: an initial
  UTC offset plus a finite sorted list of `(transition instant, new offset)`
  pairs, exactly the information a TZif zone record carries.  `offsetFrom`
  mirrors the stdlib zone lookup, and `goDateUnix` mirrors the offset
  adjustment performed by Go's `time.Date` when a wall-clock datetime in a
  location is converted to an instant.
* A local calendar date is represented by its day number (days since the Unix
  epoch, floor of local wall-clock seconds / 86400).  The proleptic-Gregorian
  triple (year, month, day) is in bijection with the day number;
  `daysFromCivil` / `civilFromDays` (the standard Hinnant algorithms, which
  agree with Go's calendar conversions) convert between the two, and are used
  to write concrete instants and the `YYYY-MM-DD` day strings readably.
* Go strings are modelled as `List Char` where character-level operations
  (split, trim, prefixes) matter, and as Lean `String` where only equality
  matters.
-/

namespace CinCin

/-! ## Calendar arithmetic

`daysFromCivil y m d` is the number of days from 1970-01-01 to the proleptic
Gregorian date `y-m-d` (Howard Hinnant's `days_from_civil`, the same function
Go's `time` package computes); `civilFromDays` is its inverse. -/

def daysFromCivil (y m d : Int) : Int :=
  let yy := if m ≤ 2 then y - 1 else y
  let era := yy.fdiv 400
  let yoe := yy - era * 400
  let mp := (m + 9).emod 12
  let doy := (153 * mp + 2).ediv 5 + d - 1
  let doe := yoe * 365 + yoe.ediv 4 - yoe.ediv 100 + doy
  era * 146097 + doe - 719468

def civilFromDays (z : Int) : Int × Int × Int :=
  let zz := z + 719468
  let era := zz.fdiv 146097
  let doe := zz - era * 146097
  let yoe := (doe - doe.ediv 1460 + doe.ediv 36524 - doe.ediv 146096).ediv 365
  let y := yoe + era * 400
  let doy := doe - (365 * yoe + yoe.ediv 4 - yoe.ediv 100)
  let mp := (5 * doy + 2).ediv 153
  let d := doy - (153 * mp + 2).ediv 5 + 1
  let m := mp + (if mp < 10 then 3 else -9)
  (if m ≤ 2 then y + 1 else y, m, d)

/-- The Unix time (seconds) of the UTC datetime `y-m-d hh:mm:ss`. -/
def civilToUnix (y m d hh mm ss : Int) : Int :=
  daysFromCivil y m d * 86400 + hh * 3600 + mm * 60 + ss

/-! ## Timezones (Go `time.Location`) -/

/-- A timezone: the UTC offset (seconds) in force before the first transition,
and a list of `(transition instant, offset in force from that instant)`
pairs sorted by instant.  This is the information of a TZif zone record,
restricted to the era the concrete models below cover. -/
structure GoLocation where
  initOffset : Int
  trans : List (Int × Int)
  deriving DecidableEq, Repr

/-- The UTC offset of the zone at instant `t`: the offset installed by the
last transition at or before `t` (the stdlib `Location.lookup` offset). -/
def offsetFrom (o : Int) : List (Int × Int) → Int → Int
  | [], _ => o
  | p :: rest, t => if t < p.1 then o else offsetFrom p.2 rest t

def GoLocation.offsetAt (loc : GoLocation) (t : Int) : Int :=
  offsetFrom loc.initOffset loc.trans t

/-- Full zone lookup, as Go's `Location.lookup`: the offset at `t` together
with the window `[start, end)` of instants sharing that offset (`none` for an
unbounded side). -/
def lookupFrom (o : Int) (lo : Option Int) :
    List (Int × Int) → Int → Int × Option Int × Option Int
  | [], _ => (o, lo, none)
  | p :: rest, t => if t < p.1 then (o, lo, some p.1) else lookupFrom p.2 (some p.1) rest t

def GoLocation.lookup (loc : GoLocation) (t : Int) : Int × Option Int × Option Int :=
  lookupFrom loc.initOffset none loc.trans t

/-- Membership of `u` in a (half-open, possibly unbounded) window. -/
def inWinB (u : Int) (lo hi : Option Int) : Bool :=
  (match lo with
   | none => true
   | some s => decide (s ≤ u)) &&
  (match hi with
   | none => true
   | some e => decide (u < e))

/-- Go's `time.Date(..., loc)` offset adjustment: `sec` is the wall-clock
datetime read as if it were UTC; the result is the instant Go constructs.
Mirrors the stdlib: look up the zone at `sec`; if the offset is nonzero,
subtract it and, if the adjusted instant falls outside the window found,
re-look-up the offset at the adjusted instant. -/
def goDateUnix (loc : GoLocation) (sec : Int) : Int :=
  let w := loc.lookup sec
  let o := w.1
  if o = 0 then sec
  else
    let utc := sec - o
    if inWinB utc w.2.1 w.2.2 then utc else sec - loc.offsetAt utc

/-- Local wall-clock seconds of instant `t` in `loc` (read as if UTC). -/
def wallSecs (loc : GoLocation) (t : Int) : Int := t + loc.offsetAt t

/-- The local calendar date of instant `t` in `loc`, as a day number. -/
def localDay (loc : GoLocation) (t : Int) : Int := (wallSecs loc t).ediv 86400

/-- The local wall-clock time of day (seconds since local midnight) of `t`. -/
def localSecOfDay (loc : GoLocation) (t : Int) : Int := (wallSecs loc t).emod 86400

/-- Model of `America/New_York` for 2023–2026: EST (UTC-5) with EDT (UTC-4)
between the second Sunday of March, 02:00 EST, and the first Sunday of
November, 02:00 EDT. -/
def nycLoc : GoLocation :=
  { initOffset := -18000
    trans :=
      [ (civilToUnix 2023 3 12 7 0 0, -14400), (civilToUnix 2023 11 5 6 0 0, -18000),
        (civilToUnix 2024 3 10 7 0 0, -14400), (civilToUnix 2024 11 3 6 0 0, -18000),
        (civilToUnix 2025 3 9 7 0 0, -14400), (civilToUnix 2025 11 2 6 0 0, -18000),
        (civilToUnix 2026 3 8 7 0 0, -14400), (civilToUnix 2026 11 1 6 0 0, -18000) ] }

/-- Model of `America/Chicago` (CST/CDT) for 2024–2026. -/
def chiLoc : GoLocation :=
  { initOffset := -21600
    trans :=
      [ (civilToUnix 2024 3 10 8 0 0, -18000), (civilToUnix 2024 11 3 7 0 0, -21600),
        (civilToUnix 2025 3 9 8 0 0, -18000), (civilToUnix 2025 11 2 7 0 0, -21600),
        (civilToUnix 2026 3 8 8 0 0, -18000), (civilToUnix 2026 11 1 7 0 0, -21600) ] }

/-- Model of `America/Los_Angeles` (PST/PDT) for 2024–2026. -/
def laLoc : GoLocation :=
  { initOffset := -28800
    trans :=
      [ (civilToUnix 2024 3 10 10 0 0, -25200), (civilToUnix 2024 11 3 9 0 0, -28800),
        (civilToUnix 2025 3 9 10 0 0, -25200), (civilToUnix 2025 11 2 9 0 0, -28800),
        (civilToUnix 2026 3 8 10 0 0, -25200), (civilToUnix 2026 11 1 9 0 0, -28800) ] }

/-- Model of Go's `time.LoadLocation`, restricted to the zones the concrete
claims use; any other name is treated as not found (invalid zone). -/
def loadLocation (tz : String) : Option GoLocation :=
  if tz = "America/New_York" then some nycLoc
  else if tz = "America/Chicago" then some chiLoc
  else if tz = "America/Los_Angeles" then some laLoc
  else none

/-! ## BookingWindow and CalculateRunTime (`store/booking_window.go`) -/

/-- `store.BookingWindow` (the `scraped_at` field plays no role in the claims
and is omitted). -/
structure BookingWindow where
  venueID : Int
  daysInAdvance : Int
  releaseHour : Int
  releaseMinute : Int
  timezone : String
  deriving DecidableEq, Repr

/-- Go's `t.AddDate(0, 0, n)` for a time `t` carried in location `loc`:
decompose `t` into its local civil datetime, add `n` to the day field, and
rebuild with `time.Date`.  Since the civil triple is in bijection with the
day number and the `Date` argument is linear in the day field, the rebuilt
wall-clock datetime is the original local wall-clock seconds plus `n * 86400`
before the zone adjustment. -/
def goAddDateDays (loc : GoLocation) (t n : Int) : Int :=
  goDateUnix loc (wallSecs loc t + n * 86400)

/-- `(*BookingWindow).CalculateRunTime`, given the already-loaded location:
convert the reservation instant into the venue zone, `AddDate` back
`daysInAdvance` days, then `time.Date` with the release hour/minute on the
resulting local date.  (`runTime.UTC()` does not change the instant.) -/
def calculateRunTimeLoc (bw : BookingWindow) (loc : GoLocation) (r : Int) : Int :=
  let releaseDate := goAddDateDays loc r (-bw.daysInAdvance)
  goDateUnix loc
    (localDay loc releaseDate * 86400 + bw.releaseHour * 3600 + bw.releaseMinute * 60)

/-- `(*BookingWindow).CalculateRunTime`: `LoadLocation` on the stored zone
name (error for an unknown zone), then the computation above. -/
def calculateRunTime (bw : BookingWindow) (r : Int) : Option Int :=
  (loadLocation bw.timezone).map (fun loc => calculateRunTimeLoc bw loc r)

/-! ## Well-formed zones and correctness of `goDateUnix`

A real IANA zone has offsets bounded by a few hours and transitions many
weeks apart.  `WellFormed B G loc` captures this: all offsets lie in
`[-B, B]` and consecutive transitions are at least `G` apart, with
`2 * B < G`.  Under these conditions, `goDateUnix` is a right inverse of the
wall-clock reading whenever the requested wall-clock datetime is attained at
all (i.e. does not fall in a DST gap). -/

def SortedG (G : Int) (l : List (Int × Int)) : Prop :=
  l.Pairwise (fun p q => p.1 + G ≤ q.1)

def WellFormed (B G : Int) (loc : GoLocation) : Prop :=
  0 ≤ B ∧ 2 * B < G ∧ (-B ≤ loc.initOffset ∧ loc.initOffset ≤ B) ∧
    (∀ p ∈ loc.trans, -B ≤ p.2 ∧ p.2 ≤ B) ∧ SortedG G loc.trans

instance (G : Int) (l : List (Int × Int)) : Decidable (SortedG G l) := by
  unfold SortedG; infer_instance

instance (B G : Int) (loc : GoLocation) : Decidable (WellFormed B G loc) := by
  unfold WellFormed; infer_instance

theorem offsetFrom_before_all {u : Int} {l : List (Int × Int)} (o : Int)
    (h : ∀ p ∈ l, u < p.1) : offsetFrom o l u = o := by
  cases l with
  | nil => rfl
  | cons p rest =>
      simp only [offsetFrom, if_pos (h p (List.mem_cons_self p rest))]

theorem offsetFrom_bound {B : Int} {l : List (Int × Int)} {o u : Int}
    (ho : -B ≤ o ∧ o ≤ B) (hl : ∀ p ∈ l, -B ≤ p.2 ∧ p.2 ≤ B) :
    -B ≤ offsetFrom o l u ∧ offsetFrom o l u ≤ B := by
  induction l generalizing o with
  | nil => exact ho
  | cons p rest ih =>
      simp only [offsetFrom]
      by_cases h : u < p.1
      · simpa [h] using ho
      · simp only [h, if_false]
        exact ih (hl p (List.mem_cons_self p rest))
          (fun q hq => hl q (List.mem_cons_of_mem p hq))

theorem lookupFrom_fst (o : Int) (lo : Option Int) (l : List (Int × Int)) (t : Int) :
    (lookupFrom o lo l t).1 = offsetFrom o l t := by
  induction l generalizing o lo with
  | nil => rfl
  | cons p rest ih =>
      simp only [lookupFrom, offsetFrom]
      by_cases h : t < p.1
      · simp [h]
      · simp [h, ih]

theorem lookupFrom_self (o : Int) (lo : Option Int) (l : List (Int × Int)) (t : Int)
    (hlo : ∀ s, lo = some s → s ≤ t) :
    inWinB t (lookupFrom o lo l t).2.1 (lookupFrom o lo l t).2.2 = true := by
  induction l generalizing o lo with
  | nil =>
      simp only [lookupFrom, inWinB]
      cases lo with
      | none => simp
      | some s => simp [hlo s rfl]
  | cons p rest ih =>
      simp only [lookupFrom]
      by_cases h : t < p.1
      · simp only [h, if_pos, inWinB]
        cases lo with
        | none => simp [h]
        | some s => simp [hlo s rfl, h]
      · simp only [h, if_false]
        refine ih p.2 (some p.1) (fun s hs => ?_)
        simp only [Option.some.injEq] at hs
        omega

/-- The lower bound returned by a lookup is either the incoming one or one of
the transition instants, in which case it is at most `t`. -/
theorem lookupFrom_lo_spec (o : Int) (lo : Option Int) (l : List (Int × Int)) (t : Int) :
    (lookupFrom o lo l t).2.1 = lo ∨
      ∃ s1 o2, (lookupFrom o lo l t).2.1 = some s1 ∧ (s1, o2) ∈ l ∧ s1 ≤ t := by
  induction l generalizing o lo with
  | nil => exact Or.inl rfl
  | cons p rest ih =>
      by_cases h : t < p.1
      · exact Or.inl (by simp [lookupFrom, h])
      · simp only [lookupFrom, h, if_false]
        rcases ih p.2 (some p.1) with h1 | ⟨s1, o2, h1, h2, h3⟩
        · exact Or.inr ⟨p.1, p.2, h1, List.mem_cons_self p rest, by omega⟩
        · exact Or.inr ⟨s1, o2, h1, List.mem_cons_of_mem p h2, h3⟩

theorem lookupFrom_hi_mem {o : Int} {lo : Option Int} {l : List (Int × Int)} {t e : Int}
    (h : (lookupFrom o lo l t).2.2 = some e) : ∃ o2, (e, o2) ∈ l := by
  induction l generalizing o lo with
  | nil => simp [lookupFrom] at h
  | cons p rest ih =>
      by_cases hc : t < p.1
      · simp only [lookupFrom, hc, if_pos] at h
        obtain rfl : p.1 = e := by simpa using h
        exact ⟨p.2, List.mem_cons_self p rest⟩
      · simp only [lookupFrom, hc, if_false] at h
        obtain ⟨o2, ho2⟩ := ih h
        exact ⟨o2, List.mem_cons_of_mem p ho2⟩

/-- Any instant inside the window returned by a lookup has the offset
returned by that lookup. -/
theorem offsetFrom_of_inWin {G : Int} (hG : 0 ≤ G) {l : List (Int × Int)}
    (hs : SortedG G l) (o : Int) (lo : Option Int) (t u : Int)
    (hwin : inWinB u (lookupFrom o lo l t).2.1 (lookupFrom o lo l t).2.2 = true) :
    offsetFrom o l u = (lookupFrom o lo l t).1 := by
  induction l generalizing o lo with
  | nil => rfl
  | cons p rest ih =>
      by_cases h : t < p.1
      · simp only [lookupFrom, h, if_pos] at hwin ⊢
        simp only [inWinB, Bool.and_eq_true, decide_eq_true_eq] at hwin
        simp [offsetFrom, hwin.2]
      · simp only [lookupFrom, h, if_false] at hwin ⊢
        have hup : p.1 ≤ u := by
          rcases lookupFrom_lo_spec p.2 (some p.1) rest t with h1 | ⟨s1, o2, h1, h2, _⟩
          · rw [h1] at hwin
            simp only [inWinB, Bool.and_eq_true, decide_eq_true_eq] at hwin
            exact hwin.1
          · rw [h1] at hwin
            simp only [inWinB, Bool.and_eq_true, decide_eq_true_eq] at hwin
            have : p.1 + G ≤ s1 := (List.pairwise_cons.1 hs).1 (s1, o2) h2
            omega
        rw [offsetFrom, if_neg (by omega)]
        exact ih (List.pairwise_cons.1 hs).2 p.2 (some p.1) hwin

/-- When a lookup returns a bounded window, its two bounds are at least `G`
apart (consecutive transitions). -/
theorem lookupFrom_gap {G : Int} {l : List (Int × Int)} (hs : SortedG G l)
    (o : Int) (lo : Option Int) (t : Int)
    (hlo : ∀ s, lo = some s → ∀ q ∈ l, s + G ≤ q.1) {s1 e : Int}
    (h1 : (lookupFrom o lo l t).2.1 = some s1)
    (h2 : (lookupFrom o lo l t).2.2 = some e) : s1 + G ≤ e := by
  induction l generalizing o lo with
  | nil => simp [lookupFrom] at h2
  | cons p rest ih =>
      by_cases h : t < p.1
      · simp only [lookupFrom, h, if_pos] at h1 h2
        obtain rfl : p.1 = e := by simpa using h2
        exact hlo s1 (by simpa using h1) p (List.mem_cons_self p rest)
      · simp only [lookupFrom, h, if_false] at h1 h2
        refine ih (List.pairwise_cons.1 hs).2 p.2 (some p.1) ?_ h1 h2
        intro s hse q hq
        obtain rfl : p.1 = s := by simpa using hse
        exact (List.pairwise_cons.1 hs).1 q hq

/-- Every instant within `G` after a transition has that transition's
offset. -/
theorem offsetFrom_next {G : Int} (hG : 0 ≤ G) {l : List (Int × Int)}
    (hs : SortedG G l) (o : Int) {s o2 : Int} (hmem : (s, o2) ∈ l) (u : Int)
    (h1 : s ≤ u) (h2 : u < s + G) : offsetFrom o l u = o2 := by
  induction l generalizing o with
  | nil => simp at hmem
  | cons p rest ih =>
      rcases List.mem_cons.1 hmem with heq | hmem2
      · have hp1 : p.1 = s := by rw [← heq]
        have hp2 : p.2 = o2 := by rw [← heq]
        rw [offsetFrom, if_neg (by omega)]
        rw [offsetFrom_before_all p.2 ?_, hp2]
        intro q hq
        have : p.1 + G ≤ q.1 := (List.pairwise_cons.1 hs).1 q hq
        omega
      · have hps : p.1 + G ≤ s := (List.pairwise_cons.1 hs).1 (s, o2) hmem2
        rw [offsetFrom, if_neg (by omega)]
        exact ih (List.pairwise_cons.1 hs).2 p.2 hmem2

/-- Any two instants within `G` before a transition have equal offsets
(they lie in the same preceding window). -/
theorem offsetFrom_prev_eq {G : Int} {l : List (Int × Int)} (hs : SortedG G l)
    (o : Int) {s o2 : Int} (hmem : (s, o2) ∈ l) (u v : Int)
    (hu1 : s - G ≤ u) (hu2 : u < s) (hv1 : s - G ≤ v) (hv2 : v < s) :
    offsetFrom o l u = offsetFrom o l v := by
  induction l generalizing o with
  | nil => simp at hmem
  | cons p rest ih =>
      rcases List.mem_cons.1 hmem with heq | hmem2
      · have hp1 : p.1 = s := by rw [← heq]
        rw [offsetFrom, if_pos (by omega), offsetFrom, if_pos (by omega)]
      · have hps : p.1 + G ≤ s := (List.pairwise_cons.1 hs).1 (s, o2) hmem2
        rw [offsetFrom, if_neg (by omega), offsetFrom, if_neg (by omega)]
        exact ih (List.pairwise_cons.1 hs).2 p.2 hmem2

theorem inWinB_false_iff (u : Int) (lo hi : Option Int) :
    inWinB u lo hi = false ↔
      (∃ s, lo = some s ∧ u < s) ∨ ∃ e, hi = some e ∧ e ≤ u := by
  cases lo <;> cases hi <;> simp [inWinB] <;> omega

theorem inWinB_true_iff (u : Int) (lo hi : Option Int) :
    inWinB u lo hi = true ↔
      (∀ s, lo = some s → s ≤ u) ∧ ∀ e, hi = some e → u < e := by
  cases lo <;> cases hi <;> simp [inWinB]

/-- Correctness of Go's `time.Date` zone adjustment: in a well-formed zone,
if the wall-clock reading `sec` is attained by some instant at all, then the
instant `goDateUnix` constructs reads back as exactly `sec`. -/
theorem goDateUnix_correct {B G : Int} {loc : GoLocation} (hwf : WellFormed B G loc)
    (sec : Int) (hex : ∃ u, wallSecs loc u = sec) :
    wallSecs loc (goDateUnix loc sec) = sec := by
  obtain ⟨hB, hBG, hInit, hOffs, hSorted⟩ := hwf
  have hG : (0 : Int) ≤ G := by omega
  set o := (loc.lookup sec).1 with ho
  have hofs : loc.offsetAt sec = o := (lookupFrom_fst _ _ _ _).symm
  have hself : inWinB sec (loc.lookup sec).2.1 (loc.lookup sec).2.2 = true :=
    lookupFrom_self _ _ _ _ (by simp)
  have hwinoff : ∀ u, inWinB u (loc.lookup sec).2.1 (loc.lookup sec).2.2 = true →
      loc.offsetAt u = o :=
    fun u hu => offsetFrom_of_inWin hG hSorted _ _ _ u hu
  by_cases h0 : o = 0
  · have hgd : goDateUnix loc sec = sec := by
      simp only [goDateUnix, ← ho, if_pos h0]
    rw [hgd]
    show sec + loc.offsetAt sec = sec
    rw [hofs]; omega
  · by_cases hwin : inWinB (sec - o) (loc.lookup sec).2.1 (loc.lookup sec).2.2 = true
    · have hgd : goDateUnix loc sec = sec - o := by
        simp only [goDateUnix, ← ho]
        rw [if_neg h0, if_pos hwin]
      rw [hgd]
      show sec - o + loc.offsetAt (sec - o) = sec
      rw [hwinoff _ hwin]; omega
    · have hgd : goDateUnix loc sec = sec - loc.offsetAt (sec - o) := by
        simp only [goDateUnix, ← ho]
        rw [if_neg h0, if_neg hwin]
      rw [hgd]
      show sec - loc.offsetAt (sec - o) + loc.offsetAt (sec - loc.offsetAt (sec - o)) = sec
      -- The adjusted instant fell outside the window: Go re-looks up the
      -- offset there.  We must show the re-looked-up offset is self-stable.
      obtain ⟨u, hu⟩ := hex
      have huw : u + loc.offsetAt u = sec := hu
      have hub : -B ≤ loc.offsetAt u ∧ loc.offsetAt u ≤ B :=
        offsetFrom_bound hInit hOffs
      have hob : -B ≤ o ∧ o ≤ B := by rw [← hofs]; exact offsetFrom_bound hInit hOffs
      have hself2 := (inWinB_true_iff _ _ _).1 hself
      rcases (inWinB_false_iff _ _ _).1 (Bool.eq_false_iff.2 hwin) with
        ⟨s1, hs1, hlt⟩ | ⟨e, he, hge⟩
      · -- Case A: `sec - o` fell before the window's start `s1`.
        have hs1sec : s1 ≤ sec := hself2.1 s1 hs1
        have hLU : lookupFrom loc.initOffset none loc.trans sec = loc.lookup sec := rfl
        obtain ⟨os1, hmem, _⟩ : ∃ o2, (s1, o2) ∈ loc.trans ∧ s1 ≤ sec := by
          rcases lookupFrom_lo_spec loc.initOffset none loc.trans sec with hn | hsp
          · rw [hLU, hs1] at hn; cases hn
          · obtain ⟨s2, o2, hh1, hh2, hh3⟩ := hsp
            rw [hLU, hs1] at hh1
            obtain rfl : s2 = s1 := by simpa using hh1.symm
            exact ⟨o2, hh2, hh3⟩
        have hus1 : u < s1 := by
          by_contra hcon
          push_neg at hcon
          cases hhi : (loc.lookup sec).2.2 with
          | none =>
              have : loc.offsetAt u = o := by
                refine hwinoff u ((inWinB_true_iff _ _ _).2 ⟨?_, ?_⟩)
                · intro s hsx; rw [hs1] at hsx; cases hsx; omega
                · intro e hex2; rw [hhi] at hex2; cases hex2
              omega
          | some e =>
              have hgap : s1 + G ≤ e :=
                lookupFrom_gap hSorted _ _ _ (by simp) hs1 hhi
              by_cases hue : u < e
              · have : loc.offsetAt u = o := by
                  refine hwinoff u ((inWinB_true_iff _ _ _).2 ⟨?_, ?_⟩)
                  · intro s hsx; rw [hs1] at hsx; cases hsx; omega
                  · intro e2 hex2; rw [hhi] at hex2; cases hex2; omega
                omega
              · omega
        have heq : loc.offsetAt u = loc.offsetAt (sec - o) :=
          offsetFrom_prev_eq hSorted _ hmem u (sec - o) (by omega) hus1 (by omega) hlt
        have hur : u = sec - loc.offsetAt (sec - o) := by omega
        have hfin : loc.offsetAt (sec - loc.offsetAt (sec - o)) = loc.offsetAt (sec - o) := by
          rw [← hur, heq]
        omega
      · -- Case B: `sec - o` fell at or after the window's end `e`.
        have hsece : sec < e := hself2.2 e he
        obtain ⟨oe, hmem⟩ := lookupFrom_hi_mem he
        have hue : e ≤ u := by
          by_contra hcon
          push_neg at hcon
          cases hlo : (loc.lookup sec).2.1 with
          | none =>
              have : loc.offsetAt u = o := by
                refine hwinoff u ((inWinB_true_iff _ _ _).2 ⟨?_, ?_⟩)
                · intro s hsx; rw [hlo] at hsx; cases hsx
                · intro e2 hex2; rw [he] at hex2; cases hex2; omega
              omega
          | some s1 =>
              have hgap : s1 + G ≤ e :=
                lookupFrom_gap hSorted _ _ _ (by simp) hlo he
              have hs1sec : s1 ≤ sec := hself2.1 s1 hlo
              by_cases hus : s1 ≤ u
              · have : loc.offsetAt u = o := by
                  refine hwinoff u ((inWinB_true_iff _ _ _).2 ⟨?_, ?_⟩)
                  · intro s hsx; rw [hlo] at hsx; cases hsx; omega
                  · intro e2 hex2; rw [he] at hex2; cases hex2; omega
                omega
              · omega
        have hoffu : loc.offsetAt u = oe :=
          offsetFrom_next hG hSorted _ hmem u hue (by omega)
        have hoffutc : loc.offsetAt (sec - o) = oe :=
          offsetFrom_next hG hSorted _ hmem (sec - o) hge (by omega)
        have hur : u = sec - loc.offsetAt (sec - o) := by omega
        have hfin : loc.offsetAt (sec - loc.offsetAt (sec - o)) = oe := by
          rw [← hur]; exact hoffu
        omega

/-! ## Claims C1 and C2: CalculateRunTime -/

/-- C1, counterexample.  The claim asserts that for every `BookingWindow`
with a valid IANA timezone and every reservation instant, the computed run
time's wall-clock time in that zone is exactly
(`release_hour`, `release_minute`, 0).  This fails when the release
wall-clock datetime falls in a DST spring-forward gap: for
bw = (days_in_advance = 1, release 02:30, America/New_York) and
r = 2025-03-10T12:00Z, the target local datetime 2025-03-09 02:30 does not
exist (clocks jump 02:00 → 03:00), and `time.Date`'s normalisation makes
`CalculateRunTime` return 2025-03-09T06:30Z, whose New York wall-clock time
is 01:30:00, not 02:30:00. -/
theorem C1_counterexample :
    loadLocation "America/New_York" = some nycLoc ∧
    calculateRunTime ⟨0, 1, 2, 30, "America/New_York"⟩ (civilToUnix 2025 3 10 12 0 0) =
      some (calculateRunTimeLoc ⟨0, 1, 2, 30, "America/New_York"⟩ nycLoc
        (civilToUnix 2025 3 10 12 0 0)) ∧
    localSecOfDay nycLoc (calculateRunTimeLoc ⟨0, 1, 2, 30, "America/New_York"⟩ nycLoc
      (civilToUnix 2025 3 10 12 0 0)) = 1 * 3600 + 30 * 60 ∧
    (1 * 3600 + 30 * 60 : Int) ≠ 2 * 3600 + 30 * 60 := by decide

/-- C1 (amended): for every `BookingWindow` whose timezone loads to a
well-formed zone and every reservation instant `r` such that neither local
datetime the computation constructs falls in a DST gap (expressed as: both
wall-clock readings are attained by some instant), `CalculateRunTime`
succeeds and returns an instant whose calendar date in the venue zone is
`r`'s local date minus `days_in_advance` days and whose local wall-clock
time is exactly (`release_hour`, `release_minute`, 0). -/
theorem C1_calculateRunTime_amended (B G : Int) (bw : BookingWindow) (loc : GoLocation)
    (r : Int) (hwf : WellFormed B G loc) (hload : loadLocation bw.timezone = some loc)
    (hhr : 0 ≤ bw.releaseHour ∧ bw.releaseHour ≤ 23)
    (hmin : 0 ≤ bw.releaseMinute ∧ bw.releaseMinute ≤ 59)
    (hex1 : ∃ u, wallSecs loc u = wallSecs loc r - bw.daysInAdvance * 86400)
    (hex2 : ∃ u, wallSecs loc u =
      (localDay loc r - bw.daysInAdvance) * 86400 +
        bw.releaseHour * 3600 + bw.releaseMinute * 60) :
    calculateRunTime bw r = some (calculateRunTimeLoc bw loc r) ∧
    localDay loc (calculateRunTimeLoc bw loc r) = localDay loc r - bw.daysInAdvance ∧
    localSecOfDay loc (calculateRunTimeLoc bw loc r) =
      bw.releaseHour * 3600 + bw.releaseMinute * 60 := by
  refine ⟨by simp [calculateRunTime, hload], ?_⟩
  have hw2 : wallSecs loc (goAddDateDays loc r (-bw.daysInAdvance)) =
      wallSecs loc r - bw.daysInAdvance * 86400 := by
    have harg : wallSecs loc r + -bw.daysInAdvance * 86400 =
        wallSecs loc r - bw.daysInAdvance * 86400 := by ring
    rw [goAddDateDays, harg]
    exact goDateUnix_correct hwf _ hex1
  have hld2 : localDay loc (goAddDateDays loc r (-bw.daysInAdvance)) =
      localDay loc r - bw.daysInAdvance := by
    have hdd : (wallSecs loc r + -bw.daysInAdvance * 86400).ediv 86400 =
        (wallSecs loc r).ediv 86400 + -bw.daysInAdvance :=
      Int.add_mul_ediv_right _ _ (by norm_num)
    rw [localDay, hw2, show wallSecs loc r - bw.daysInAdvance * 86400 =
      wallSecs loc r + -bw.daysInAdvance * 86400 from by ring, hdd, localDay]
    ring
  have hrun : wallSecs loc (calculateRunTimeLoc bw loc r) =
      (localDay loc r - bw.daysInAdvance) * 86400 +
        bw.releaseHour * 3600 + bw.releaseMinute * 60 := by
    simp only [calculateRunTimeLoc, hld2]
    exact goDateUnix_correct hwf _ hex2
  have htod : (0 : Int) ≤ bw.releaseHour * 3600 + bw.releaseMinute * 60 ∧
      bw.releaseHour * 3600 + bw.releaseMinute * 60 < 86400 := by omega
  constructor
  · have hd1 : (bw.releaseHour * 3600 + bw.releaseMinute * 60 +
        (localDay loc r - bw.daysInAdvance) * 86400).ediv 86400 =
        (bw.releaseHour * 3600 + bw.releaseMinute * 60).ediv 86400 +
          (localDay loc r - bw.daysInAdvance) :=
      Int.add_mul_ediv_right _ _ (by norm_num)
    have hd2 : (bw.releaseHour * 3600 + bw.releaseMinute * 60).ediv 86400 = 0 :=
      Int.ediv_eq_zero_of_lt htod.1 htod.2
    rw [localDay, hrun, show (localDay loc r - bw.daysInAdvance) * 86400 +
      bw.releaseHour * 3600 + bw.releaseMinute * 60 =
      bw.releaseHour * 3600 + bw.releaseMinute * 60 +
        (localDay loc r - bw.daysInAdvance) * 86400 from by ring, hd1, hd2]
    ring
  · have hm1 : (bw.releaseHour * 3600 + bw.releaseMinute * 60 +
        (localDay loc r - bw.daysInAdvance) * 86400).emod 86400 =
        (bw.releaseHour * 3600 + bw.releaseMinute * 60).emod 86400 :=
      Int.add_mul_emod_self
    have hm2 : (bw.releaseHour * 3600 + bw.releaseMinute * 60).emod 86400 =
        bw.releaseHour * 3600 + bw.releaseMinute * 60 :=
      Int.emod_eq_of_lt htod.1 htod.2
    rw [localSecOfDay, hrun, show (localDay loc r - bw.daysInAdvance) * 86400 +
      bw.releaseHour * 3600 + bw.releaseMinute * 60 =
      bw.releaseHour * 3600 + bw.releaseMinute * 60 +
        (localDay loc r - bw.daysInAdvance) * 86400 from by ring, hm1, hm2]

/-- C1 witness: the amended theorem applied to the concrete booking window
(30 days, release 09:00, America/New_York) and r = 2025-07-31T23:00Z. -/
theorem C1_calculateRunTime_amended_witness :
    calculateRunTime ⟨0, 30, 9, 0, "America/New_York"⟩ (civilToUnix 2025 7 31 23 0 0) =
      some (calculateRunTimeLoc ⟨0, 30, 9, 0, "America/New_York"⟩ nycLoc
        (civilToUnix 2025 7 31 23 0 0)) ∧
    localDay nycLoc (calculateRunTimeLoc ⟨0, 30, 9, 0, "America/New_York"⟩ nycLoc
      (civilToUnix 2025 7 31 23 0 0)) =
      localDay nycLoc (civilToUnix 2025 7 31 23 0 0) - 30 ∧
    localSecOfDay nycLoc (calculateRunTimeLoc ⟨0, 30, 9, 0, "America/New_York"⟩ nycLoc
      (civilToUnix 2025 7 31 23 0 0)) = 9 * 3600 + 0 * 60 :=
  C1_calculateRunTime_amended 18000 1000000 ⟨0, 30, 9, 0, "America/New_York"⟩ nycLoc
    (civilToUnix 2025 7 31 23 0 0) (by decide) (by decide) (by decide) (by decide)
    ⟨civilToUnix 2025 7 1 23 0 0, by decide⟩ ⟨civilToUnix 2025 7 1 13 0 0, by decide⟩

/-- C2, counterexample.  The claim asserts that `CalculateRunTime` with
bw = (30 days, release 09:00, America/New_York) and
r = 2025-07-31T23:00Z returns 2025-06-01T13:00Z.  It does not: July 31 minus
30 calendar days is July 1 (not June 1). -/
theorem C2_counterexample :
    calculateRunTime ⟨0, 30, 9, 0, "America/New_York"⟩ (civilToUnix 2025 7 31 23 0 0) ≠
      some (civilToUnix 2025 6 1 13 0 0) := by decide

/-- C2 (amended): `CalculateRunTime` with bw = (days_in_advance = 30,
release_hour = 9, release_minute = 0, timezone America/New_York) and
reservation instant 2025-07-31T23:00Z returns the UTC instant
2025-07-01T13:00Z, i.e. the New York date 2025-07-01 with wall-clock time
09:00. -/
theorem C2_calculateRunTime_example :
    calculateRunTime ⟨0, 30, 9, 0, "America/New_York"⟩ (civilToUnix 2025 7 31 23 0 0) =
      some (civilToUnix 2025 7 1 13 0 0) ∧
    localDay nycLoc (civilToUnix 2025 7 1 13 0 0) = daysFromCivil 2025 7 1 ∧
    localSecOfDay nycLoc (civilToUnix 2025 7 1 13 0 0) = 9 * 3600 := by decide

/-! ## Go string primitives

Character-level models of the `strings` stdlib functions used by the
protocol client, over `List Char`. -/

/-- `unicode.IsSpace` restricted to the ASCII whitespace the cookie strings
can contain. -/
def goIsSpace (c : Char) : Bool :=
  c = ' ' || c = '\t' || c = '\n' || c = '\r' || c = Char.ofNat 11 || c = Char.ofNat 12

/-- `strings.TrimSpace`. -/
def goTrimSpace (s : List Char) : List Char :=
  ((s.dropWhile goIsSpace).reverse.dropWhile goIsSpace).reverse

/-- `strings.Split(s, sep)` for a one-character separator. -/
def goSplitChar (sep : Char) : List Char → List (List Char)
  | [] => [[]]
  | c :: rest =>
      if c = sep then [] :: goSplitChar sep rest
      else
        match goSplitChar sep rest with
        | [] => [[c]]
        | h :: t => (c :: h) :: t

/-- The part of `s` before the first `sep`, and the part after, when `sep`
occurs. -/
def goCut (sep : Char) : List Char → Option (List Char × List Char)
  | [] => none
  | c :: rest =>
      if c = sep then some ([], rest)
      else
        match goCut sep rest with
        | none => none
        | some (a, b) => some (c :: a, b)

/-- `strings.SplitN(s, sep, 2)` for a one-character separator. -/
def goSplitN2 (sep : Char) (s : List Char) : List (List Char) :=
  match goCut sep s with
  | none => [s]
  | some (a, b) => [a, b]

/-- `strings.HasPrefix(s, pre)`. -/
def goStartsWith : List Char → List Char → Bool
  | _, [] => true
  | [], _ :: _ => false
  | c :: s, p :: ps => c = p && goStartsWith s ps

/-- `strings.ToLower` (the inputs at hand are ASCII). -/
def goToLower (s : List Char) : List Char := s.map Char.toLower

/-- `strings.TrimPrefix(s, pre)`. -/
def goTrimLeading (s pre : List Char) : List Char :=
  if goStartsWith s pre then s.drop pre.length else s

/-- `strings.Contains(hay, needle)`. -/
def strContainsSub (hay needle : List Char) : Bool :=
  (List.range (hay.length + 1)).any (fun i => goStartsWith (hay.drop i) needle)

/-! ## HTTP responses, WAF-challenge detection and cookie extraction
(`resy` package in `store/booking_window.go`) -/

/-- The portion of an `http.Response` the client inspects: the status code,
the `X-Cdn` and `Server` headers (empty string when absent, as
`Header.Get`), and the `Set-Cookie` header values. -/
structure HttpResp where
  status : Int
  xCdn : String
  server : String
  setCookies : List (List Char)

/-- An `http.Cookie` as built by `extractCookiesFromResponse`.  The stdlib
RFC-1123 time parser used for the `expires` attribute is not part of the
repository; it is abstracted as the `parseR` argument below and its result
stored in `expires`. -/
structure Cookie where
  name : List Char
  value : List Char
  domain : List Char
  path : List Char
  secure : Bool
  httpOnly : Bool
  expires : Option Int
  deriving DecidableEq

/-- `isImpervaChallenge`. -/
def isImpervaChallenge (r : HttpResp) : Bool :=
  if r.status ≠ 500 ∧ r.status ≠ 403 ∧ r.status ≠ 503 then false
  else if r.xCdn = "Imperva" then true
  else if r.server = "nginx" ∧ r.status = 500 then true
  else false

/-- The five recognized WAF cookie-name prefixes. -/
def wafNamePrefixes : List (List Char) :=
  ["_incap_".data, "incap_ses_".data, "_visid_".data, "visid_incap_".data, "nlbi_".data]

def isWafCookieName (n : List Char) : Bool :=
  wafNamePrefixes.any (fun p => goStartsWith n p)

/-- The attribute loop of `extractCookiesFromResponse` (`for i := 1; ...`):
`domain=`, `path=`, `secure`, `httponly` and `expires=` parts update the
cookie.  `parseR` models `time.Parse(time.RFC1123, ·)`. -/
def applyCookieAttrs (parseR : List Char → Option Int) : Cookie → List (List Char) → Cookie
  | c, [] => c
  | c, raw :: rest =>
      let part := goTrimSpace raw
      let c2 :=
        if goStartsWith (goToLower part) "domain=".data then
          { c with domain := goTrimLeading part "domain=".data }
        else if goStartsWith (goToLower part) "path=".data then
          { c with path := goTrimLeading part "path=".data }
        else if goToLower part = "secure".data then { c with secure := true }
        else if goToLower part = "httponly".data then { c with httpOnly := true }
        else if goStartsWith (goToLower part) "expires=".data then
          match parseR (goTrimLeading part "expires=".data) with
          | some t => { c with expires := some t }
          | none => c
        else c
      applyCookieAttrs parseR c2 rest

/-- "Add or update cookie": replace the first jar entry with the same name,
else append. -/
def upsertCookie (c : Cookie) : List Cookie → List Cookie
  | [] => [c]
  | e :: rest => if e.name = c.name then c :: rest else e :: upsertCookie c rest

/-- The name a `Set-Cookie` value parses to: everything before the first `;`
is split at the first `=` (`strings.SplitN(·, "=", 2)` yields two parts
exactly when `goCut` succeeds), and the left part is trimmed. -/
def setCookieName (cs : List Char) : Option (List Char) :=
  match goSplitChar ';' cs with
  | [] => none
  | p0 :: _ =>
      match goCut '=' p0 with
      | none => none
      | some (nm, _) => some (goTrimSpace nm)

/-- Processing of a single `Set-Cookie` value by
`extractCookiesFromResponse`, after the `;`-split: parse the name/value of
the first part, check the WAF prefix set, build the cookie with defaults
`.resy.com` / `/`, apply the attribute parts, and merge into the jar. -/
def processParts (parseR : List Char → Option Int) (jar : List Cookie) :
    List (List Char) → List Cookie
  | [] => jar
  | p0 :: attrs =>
      match goCut '=' p0 with
      | none => jar
      | some (nm, v) =>
          if isWafCookieName (goTrimSpace nm) then
            upsertCookie
              (applyCookieAttrs parseR
                { name := goTrimSpace nm, value := v, domain := ".resy.com".data,
                  path := "/".data, secure := false, httpOnly := false,
                  expires := none } attrs)
              jar
          else jar

def processSetCookie (parseR : List Char → Option Int) (jar : List Cookie)
    (cs : List Char) : List Cookie :=
  processParts parseR jar (goSplitChar ';' cs)

/-- `extractCookiesFromResponse`: on an Imperva-flavoured response, fold the
`Set-Cookie` values into the in-memory jar. -/
def extractCookiesFromResponse (parseR : List Char → Option Int) (resp : HttpResp)
    (jar : List Cookie) : List Cookie :=
  if resp.xCdn = "Imperva" ∨ resp.server = "nginx" then
    resp.setCookies.foldl (processSetCookie parseR) jar
  else jar

/-- The cookie a `Set-Cookie` value parses to: name and value cut from the
first `;`-part at the first `=`, the `.resy.com` / `/` defaults, then the
attribute loop.  The WAF-prefix check is applied separately. -/
def setCookieParsed (parseR : List Char → Option Int) (cs : List Char) : Option Cookie :=
  match goSplitChar ';' cs with
  | [] => none
  | p0 :: attrs =>
      match goCut '=' p0 with
      | none => none
      | some (nm, v) =>
          some (applyCookieAttrs parseR
            { name := goTrimSpace nm, value := v, domain := ".resy.com".data,
              path := "/".data, secure := false, httpOnly := false,
              expires := none } attrs)

/-- The cookies a response's `Set-Cookie` values parse to whose name bears
a recognized WAF prefix, in header order. -/
def recognizedCookies (parseR : List Char → Option Int) (resp : HttpResp) : List Cookie :=
  (resp.setCookies.filterMap (setCookieParsed parseR)).filter
    (fun c => isWafCookieName c.name)

/-- The last cookie of the list named `nm`, if any. -/
def lastNamed (nm : List Char) : List Cookie → Option Cookie
  | [] => none
  | c :: rest =>
      match lastNamed nm rest with
      | some d => some d
      | none => if c.name = nm then some c else none

/-! ## doRequestWithRetry -/

/-- Error kinds of the `api` package surfaced by the protocol client
(sentinel errors; the `api` package defines them as opaque values). -/
inductive ResyError where
  | imperva
  | timeNull
  | noOffer
  | noTable
  | loginWrong
  | noPayInfo
  | network (step : String) (status : Int) (msg : String)
  | generic
  deriving DecidableEq

/-- Observable actions of `doRequestWithRetry`: issuing the HTTP request of
a given attempt, and sleeping (seconds) before a replay. -/
inductive RetryEvent where
  | attempt (i : Nat)
  | sleepSec (n : Nat)
  deriving DecidableEq

/-- The retry loop of `doRequestWithRetry`.  `resp i` is the response the
transport returns for attempt `i` (transport errors, which abort the loop
immediately, are outside the claims and not modelled); `fuel` is
`maxRetries - attempt`, making the recursion structural. -/
def doRequestWithRetryAux (parseR : List Char → Option Int) (resp : Nat → HttpResp)
    (maxRetries : Nat) :
    Nat → Nat → List Cookie → List RetryEvent →
      Except ResyError HttpResp × List Cookie × List RetryEvent
  | attempt, fuel, jar, acc =>
      let acc2 := if 0 < attempt then acc ++ [RetryEvent.sleepSec 1] else acc
      let acc3 := acc2 ++ [RetryEvent.attempt attempt]
      let r := resp attempt
      if isImpervaChallenge r then
        let jar2 := extractCookiesFromResponse parseR r jar
        if attempt < maxRetries then
          match fuel with
          | 0 => (Except.error ResyError.imperva, jar2, acc3)
          | fuel2 + 1 => doRequestWithRetryAux parseR resp maxRetries (attempt + 1) fuel2 jar2 acc3
        else (Except.error ResyError.imperva, jar2, acc3)
      else (Except.ok r, jar, acc3)

/-- `doRequestWithRetry`, returning the outcome, the final cookie jar, and
the observable trace. -/
def doRequestWithRetry (parseR : List Char → Option Int) (resp : Nat → HttpResp)
    (maxRetries : Nat) (jar : List Cookie) :
    Except ResyError HttpResp × List Cookie × List RetryEvent :=
  doRequestWithRetryAux parseR resp maxRetries 0 maxRetries jar []

/-! ## Claim C4: WAF-challenge retry -/

/-- C4: if every response is a WAF challenge — status 403/500/503 with
`X-Cdn: Imperva`, or status 500 with `Server: nginx` — then
`doRequestWithRetry` with a budget of 2 re-attempts issues exactly 3 HTTP
attempts, sleeping 1 second before each replay, and surfaces `ErrImperva`;
and if some attempt (after challenged ones) yields a non-challenge response,
that response is returned with no error. -/
theorem C4_doRequestWithRetry_spec (parseR : List Char → Option Int)
    (resp : Nat → HttpResp) (jar : List Cookie) :
    ((∀ i, i ≤ 2 → isImpervaChallenge (resp i) = true) →
      (doRequestWithRetry parseR resp 2 jar).1 = Except.error ResyError.imperva ∧
      (doRequestWithRetry parseR resp 2 jar).2.2 =
        [RetryEvent.attempt 0, RetryEvent.sleepSec 1, RetryEvent.attempt 1,
          RetryEvent.sleepSec 1, RetryEvent.attempt 2]) ∧
    (∀ i, i ≤ 2 → (∀ j, j < i → isImpervaChallenge (resp j) = true) →
      isImpervaChallenge (resp i) = false →
      (doRequestWithRetry parseR resp 2 jar).1 = Except.ok (resp i)) := by
  constructor
  · intro h
    have h0 := h 0 (by omega)
    have h1 := h 1 (by omega)
    have h2 := h 2 (by omega)
    constructor <;> simp [doRequestWithRetry, doRequestWithRetryAux, h0, h1, h2]
  · intro i hi hprev hbad
    interval_cases i
    · simp [doRequestWithRetry, doRequestWithRetryAux, hbad]
    · have h0 := hprev 0 (by omega)
      simp [doRequestWithRetry, doRequestWithRetryAux, h0, hbad]
    · have h0 := hprev 0 (by omega)
      have h1 := hprev 1 (by omega)
      simp [doRequestWithRetry, doRequestWithRetryAux, h0, h1, hbad]

/-- A permanently challenging response and a clean response, for the C4
witness. -/
def wafRespC4 : HttpResp := ⟨503, "Imperva", "", []⟩

def okRespC4 : HttpResp := ⟨200, "", "", []⟩

/-- C4 witness: the retry theorem applied to an always-challenged request
and to a request whose second attempt succeeds. -/
theorem C4_doRequestWithRetry_witness :
    (doRequestWithRetry (fun _ => none) (fun _ => wafRespC4) 2 []).1 =
      Except.error ResyError.imperva ∧
    (doRequestWithRetry (fun _ => none) (fun i => if i = 0 then wafRespC4 else okRespC4)
        2 []).1 = Except.ok okRespC4 := by
  refine ⟨((C4_doRequestWithRetry_spec (fun _ => none) (fun _ => wafRespC4) []).1
    (by decide)).1, ?_⟩
  have h := (C4_doRequestWithRetry_spec (fun _ => none)
    (fun i => if i = 0 then wafRespC4 else okRespC4) []).2 1 (by omega) (by decide) (by decide)
  simpa using h

/-! ## Claim C5: cookie extraction and merge -/

theorem applyCookieAttrs_name (parseR : List Char → Option Int) (c : Cookie)
    (l : List (List Char)) : (applyCookieAttrs parseR c l).name = c.name := by
  induction l generalizing c with
  | nil => rfl
  | cons raw rest ih =>
      rw [applyCookieAttrs, ih]
      dsimp only
      split_ifs <;> try rfl
      split <;> rfl

theorem upsertCookie_names (c : Cookie) (jar : List Cookie) :
    (upsertCookie c jar).map Cookie.name = jar.map Cookie.name ∨
    (upsertCookie c jar).map Cookie.name = jar.map Cookie.name ++ [c.name] := by
  induction jar with
  | nil => right; rfl
  | cons e rest ih =>
      by_cases h : e.name = c.name
      · left; simp [upsertCookie, h]
      · rcases ih with h1 | h1
        · left; simp [upsertCookie, h, h1]
        · right; simp [upsertCookie, h, h1]

theorem mem_upsertCookie_names (c : Cookie) (jar : List Cookie) :
    c.name ∈ (upsertCookie c jar).map Cookie.name := by
  induction jar with
  | nil => simp [upsertCookie]
  | cons e rest ih =>
      by_cases he : e.name = c.name
      · simp [upsertCookie, he]
      · simp only [upsertCookie, if_neg he, List.map_cons, List.mem_cons]
        exact Or.inr ih

theorem mem_upsertCookie (c : Cookie) (jar : List Cookie) (x : Cookie)
    (hx : x ∈ upsertCookie c jar) : x = c ∨ x ∈ jar := by
  induction jar with
  | nil => simpa [upsertCookie] using hx
  | cons e rest ih =>
      by_cases h : e.name = c.name
      · simp only [upsertCookie, if_pos h, List.mem_cons] at hx
        rcases hx with h2 | h2
        · exact Or.inl h2
        · exact Or.inr (List.mem_cons_of_mem e h2)
      · simp only [upsertCookie, if_neg h, List.mem_cons] at hx
        rcases hx with h2 | h2
        · exact Or.inr (by simp [h2])
        · rcases ih h2 with h3 | h3
          · exact Or.inl h3
          · exact Or.inr (List.mem_cons_of_mem e h3)

theorem setCookieName_eq (cs p0 : List Char) (rest : List (List Char)) (a b : List Char)
    (hsp : goSplitChar ';' cs = p0 :: rest) (hs2 : goCut '=' p0 = some (a, b)) :
    setCookieName cs = some (goTrimSpace a) := by
  unfold setCookieName
  rw [hsp]
  dsimp only
  rw [hs2]

theorem processSetCookie_names (parseR : List Char → Option Int) (jar : List Cookie)
    (cs : List Char) :
    (processSetCookie parseR jar cs).map Cookie.name = jar.map Cookie.name ∨
    ∃ nm, setCookieName cs = some nm ∧ isWafCookieName nm = true ∧
      (processSetCookie parseR jar cs).map Cookie.name = jar.map Cookie.name ++ [nm] := by
  unfold processSetCookie
  cases hsp : goSplitChar ';' cs with
  | nil => left; rfl
  | cons p0 attrs =>
      rw [processParts]
      cases hs2 : goCut '=' p0 with
      | none => left; rfl
      | some nv =>
          obtain ⟨a, b⟩ := nv
          dsimp only
          by_cases hw : isWafCookieName (goTrimSpace a) = true
          · rw [if_pos hw]
            rcases upsertCookie_names
                (applyCookieAttrs parseR
                  { name := goTrimSpace a, value := b, domain := ".resy.com".data,
                    path := "/".data, secure := false, httpOnly := false,
                    expires := none } attrs) jar with h | h
            · left; exact h
            · right
              exact ⟨goTrimSpace a, setCookieName_eq cs p0 attrs a b hsp hs2, hw,
                by rw [h, applyCookieAttrs_name]⟩
          · left
            rw [if_neg hw]

theorem processSetCookie_mem (parseR : List Char → Option Int) (jar : List Cookie)
    (cs : List Char) (x : Cookie) (hx : x ∈ processSetCookie parseR jar cs) :
    x ∈ jar ∨ isWafCookieName x.name = true := by
  unfold processSetCookie at hx
  cases hsp : goSplitChar ';' cs with
  | nil => rw [hsp, processParts] at hx; exact Or.inl hx
  | cons p0 attrs =>
      rw [hsp, processParts] at hx
      cases hs2 : goCut '=' p0 with
      | none => rw [hs2] at hx; exact Or.inl hx
      | some nv =>
          obtain ⟨a, b⟩ := nv
          rw [hs2] at hx
          dsimp only at hx
          by_cases hw : isWafCookieName (goTrimSpace a) = true
          · rw [if_pos hw] at hx
            rcases mem_upsertCookie _ _ _ hx with h | h
            · right; rw [h, applyCookieAttrs_name]; exact hw
            · exact Or.inl h
          · rw [if_neg hw] at hx
            exact Or.inl hx

theorem processSetCookie_adds (parseR : List Char → Option Int) (jar : List Cookie)
    (cs : List Char) (nm : List Char) (h1 : setCookieName cs = some nm)
    (h2 : isWafCookieName nm = true) :
    nm ∈ (processSetCookie parseR jar cs).map Cookie.name := by
  unfold setCookieName at h1
  unfold processSetCookie
  cases hsp : goSplitChar ';' cs with
  | nil => rw [hsp] at h1; cases h1
  | cons p0 attrs =>
      rw [hsp] at h1
      dsimp only at h1
      rw [processParts]
      cases hs2 : goCut '=' p0 with
      | none => rw [hs2] at h1; cases h1
      | some nv =>
          obtain ⟨a, b⟩ := nv
          rw [hs2] at h1
          dsimp only at h1 ⊢
          obtain rfl : goTrimSpace a = nm := by simpa using h1
          rw [if_pos h2]
          have := mem_upsertCookie_names
            (applyCookieAttrs parseR
              { name := goTrimSpace a, value := b, domain := ".resy.com".data,
                path := "/".data, secure := false, httpOnly := false,
                expires := none } attrs) jar
          rwa [applyCookieAttrs_name] at this

theorem foldl_process_names (parseR : List Char → Option Int) (l : List (List Char))
    (jar : List Cookie) :
    ∃ tail, (l.foldl (processSetCookie parseR) jar).map Cookie.name =
      jar.map Cookie.name ++ tail := by
  induction l generalizing jar with
  | nil => exact ⟨[], by simp⟩
  | cons cs rest ih =>
      obtain ⟨t2, h2⟩ := ih (processSetCookie parseR jar cs)
      rcases processSetCookie_names parseR jar cs with h1 | ⟨nm, _, _, h1⟩
      · exact ⟨t2, by rw [List.foldl_cons, h2, h1]⟩
      · exact ⟨nm :: t2, by rw [List.foldl_cons, h2, h1]; simp⟩

theorem foldl_process_mem_names (parseR : List Char → Option Int) (l : List (List Char))
    (jar : List Cookie) (nm : List Char) (h : nm ∈ jar.map Cookie.name) :
    nm ∈ (l.foldl (processSetCookie parseR) jar).map Cookie.name := by
  obtain ⟨tail, ht⟩ := foldl_process_names parseR l jar
  rw [ht]
  exact List.mem_append_left _ h

theorem foldl_process_mem (parseR : List Char → Option Int) (l : List (List Char))
    (jar : List Cookie) (x : Cookie) (hx : x ∈ l.foldl (processSetCookie parseR) jar) :
    x ∈ jar ∨ isWafCookieName x.name = true := by
  induction l generalizing jar with
  | nil => exact Or.inl (by simpa using hx)
  | cons cs rest ih =>
      rw [List.foldl_cons] at hx
      rcases ih _ hx with h | h
      · exact processSetCookie_mem parseR jar cs x h
      · exact Or.inr h

theorem foldl_process_adds (parseR : List Char → Option Int) (l : List (List Char))
    (jar : List Cookie) (cs : List Char) (nm : List Char) (hcs : cs ∈ l)
    (h1 : setCookieName cs = some nm) (h2 : isWafCookieName nm = true) :
    nm ∈ (l.foldl (processSetCookie parseR) jar).map Cookie.name := by
  induction l generalizing jar with
  | nil => cases hcs
  | cons c0 rest ih =>
      rw [List.foldl_cons]
      rcases List.mem_cons.1 hcs with rfl | hmem
      · exact foldl_process_mem_names parseR rest _ nm
          (processSetCookie_adds parseR jar cs nm h1 h2)
      · exact ih _ hmem

theorem processSetCookie_eq (parseR : List Char → Option Int) (jar : List Cookie)
    (cs : List Char) :
    processSetCookie parseR jar cs =
      match setCookieParsed parseR cs with
      | none => jar
      | some c => if isWafCookieName c.name then upsertCookie c jar else jar := by
  unfold processSetCookie setCookieParsed
  cases hsp : goSplitChar ';' cs with
  | nil => rfl
  | cons p0 attrs =>
      rw [processParts]
      dsimp only
      cases hs2 : goCut '=' p0 with
      | none => rfl
      | some nv =>
          obtain ⟨a, b⟩ := nv
          dsimp only
          rw [applyCookieAttrs_name]

theorem foldl_process_eq (parseR : List Char → Option Int) (l : List (List Char))
    (jar : List Cookie) :
    l.foldl (processSetCookie parseR) jar =
      ((l.filterMap (setCookieParsed parseR)).filter
          (fun c => isWafCookieName c.name)).foldl (fun j c => upsertCookie c j) jar := by
  induction l generalizing jar with
  | nil => rfl
  | cons cs rest ih =>
      rw [List.foldl_cons, processSetCookie_eq, ih, List.filterMap_cons]
      cases hp : setCookieParsed parseR cs with
      | none => rfl
      | some c =>
          dsimp only
          rw [List.filter_cons]
          by_cases hw : isWafCookieName c.name = true
          · rw [if_pos hw, if_pos hw, List.foldl_cons]
          · rw [if_neg hw, if_neg hw]

theorem upsertCookie_replace (c e : Cookie) (pre post : List Cookie)
    (hpre : ∀ x ∈ pre, x.name ≠ c.name) (he : e.name = c.name) :
    upsertCookie c (pre ++ e :: post) = pre ++ c :: post := by
  induction pre with
  | nil => simp [upsertCookie, he]
  | cons x rest ih =>
      have hx : x.name ≠ c.name := hpre x (by simp)
      simp only [List.cons_append, upsertCookie, if_neg hx]
      exact congrArg (List.cons x) (ih (fun y hy => hpre y (by simp [hy])))

theorem upsertCookie_append_new (c : Cookie) (j : List Cookie)
    (h : c.name ∉ j.map Cookie.name) :
    upsertCookie c j = j ++ [c] := by
  induction j with
  | nil => rfl
  | cons e rest ih =>
      have he : e.name ≠ c.name := fun hn => h (by simp [hn])
      simp only [upsertCookie, if_neg he, List.cons_append]
      rw [ih (fun hm => h (by simp [hm]))]

theorem find?_cookie_cons (nm : List Char) (e : Cookie) (l : List Cookie) :
    (e :: l).find? (fun x => decide (x.name = nm)) =
      if e.name = nm then some e else l.find? (fun x => decide (x.name = nm)) := by
  by_cases h : e.name = nm
  · rw [if_pos h]
    exact List.find?_cons_of_pos l (by simp [h])
  · rw [if_neg h]
    exact List.find?_cons_of_neg l (by simp [h])

theorem find?_upsertCookie (c : Cookie) (j : List Cookie) (nm : List Char) :
    (upsertCookie c j).find? (fun x => decide (x.name = nm)) =
      if c.name = nm then some c else j.find? (fun x => decide (x.name = nm)) := by
  induction j with
  | nil => exact find?_cookie_cons nm c []
  | cons e rest ih =>
      by_cases he : e.name = c.name
      · rw [show upsertCookie c (e :: rest) = c :: rest from by
            simp [upsertCookie, he],
          find?_cookie_cons, find?_cookie_cons]
        by_cases h : c.name = nm
        · rw [if_pos h, if_pos h]
        · rw [if_neg h, if_neg h, if_neg (show ¬ e.name = nm from by rw [he]; exact h)]
      · rw [show upsertCookie c (e :: rest) = e :: upsertCookie c rest from by
            simp [upsertCookie, he],
          find?_cookie_cons, find?_cookie_cons, ih]
        by_cases hen : e.name = nm
        · have h : ¬ c.name = nm := fun hc => he (by rw [hen, hc])
          rw [if_pos hen, if_neg h, if_pos hen]
        · rw [if_neg hen, if_neg hen]

theorem find?_foldl_upsert (nm : List Char) (us : List Cookie) (jar : List Cookie) :
    (us.foldl (fun j c => upsertCookie c j) jar).find? (fun x => decide (x.name = nm)) =
      match lastNamed nm us with
      | some d => some d
      | none => jar.find? (fun x => decide (x.name = nm)) := by
  induction us generalizing jar with
  | nil => rfl
  | cons c rest ih =>
      rw [List.foldl_cons, ih, lastNamed]
      cases hl : lastNamed nm rest with
      | some d => rfl
      | none =>
          dsimp only
          rw [find?_upsertCookie]
          by_cases h : c.name = nm
          · rw [if_pos h, if_pos h]
          · rw [if_neg h, if_neg h]

/-- C5: processing a WAF-challenge response merges into the jar exactly the
`Set-Cookie` values whose cookie name begins with one of the five recognized
prefixes: (i) every cookie of the new jar is an old cookie or has a
recognized name; (ii) every recognized `Set-Cookie` name is present
afterwards; (iii) the old jar's names survive in place (the new name list
extends the old one); (iv) an unrecognized name never enters the jar;
(v) the new jar is exactly the old jar with the recognized parsed cookies
(values and attributes included) upserted in header order; (vi) an upsert
whose name matches an existing entry replaces that first entry in place,
the rest of the jar unchanged; (vii) an upsert whose name is absent appends
the parsed cookie; (viii) looking a name up in the new jar yields the last
recognized parsed cookie of that name — with its parsed value — and falls
back to the old jar's entry only when the response set no such name. -/
theorem C5_extractCookies_spec (parseR : List Char → Option Int) (resp : HttpResp)
    (jar : List Cookie) (hch : isImpervaChallenge resp = true) :
    (∀ c ∈ extractCookiesFromResponse parseR resp jar,
        c.name ∈ jar.map Cookie.name ∨ isWafCookieName c.name = true) ∧
    (∀ cs ∈ resp.setCookies, ∀ nm, setCookieName cs = some nm →
        isWafCookieName nm = true →
        nm ∈ (extractCookiesFromResponse parseR resp jar).map Cookie.name) ∧
    (∃ tail, (extractCookiesFromResponse parseR resp jar).map Cookie.name =
        jar.map Cookie.name ++ tail) ∧
    (∀ nm, isWafCookieName nm = false → nm ∉ jar.map Cookie.name →
        nm ∉ (extractCookiesFromResponse parseR resp jar).map Cookie.name) ∧
    (extractCookiesFromResponse parseR resp jar =
      (recognizedCookies parseR resp).foldl (fun j c => upsertCookie c j) jar) ∧
    (∀ (c e : Cookie) (pre post : List Cookie), (∀ x ∈ pre, x.name ≠ c.name) →
        e.name = c.name → upsertCookie c (pre ++ e :: post) = pre ++ c :: post) ∧
    (∀ (c : Cookie) (j : List Cookie), c.name ∉ j.map Cookie.name →
        upsertCookie c j = j ++ [c]) ∧
    (∀ nm, (extractCookiesFromResponse parseR resp jar).find?
          (fun x => decide (x.name = nm)) =
        match lastNamed nm (recognizedCookies parseR resp) with
        | some d => some d
        | none => jar.find? (fun x => decide (x.name = nm))) := by
  have hguard : resp.xCdn = "Imperva" ∨ resp.server = "nginx" := by
    unfold isImpervaChallenge at hch
    split_ifs at hch with a b c
    · exact Or.inl b
    · exact Or.inr c.1
  have hext : extractCookiesFromResponse parseR resp jar =
      resp.setCookies.foldl (processSetCookie parseR) jar := by
    unfold extractCookiesFromResponse
    rw [if_pos hguard]
  have hfuse : extractCookiesFromResponse parseR resp jar =
      (recognizedCookies parseR resp).foldl (fun j c => upsertCookie c j) jar := by
    rw [hext]
    exact foldl_process_eq parseR resp.setCookies jar
  refine ⟨?_, ?_, ?_, ?_, hfuse,
    fun c e pre post h1 h2 => upsertCookie_replace c e pre post h1 h2,
    fun c j h => upsertCookie_append_new c j h, ?_⟩
  · rw [hext]
    intro c hc
    rcases foldl_process_mem _ _ _ _ hc with h | h
    · exact Or.inl (List.mem_map_of_mem Cookie.name h)
    · exact Or.inr h
  · rw [hext]
    intro cs hcs nm h1 h2
    exact foldl_process_adds parseR _ jar cs nm hcs h1 h2
  · rw [hext]
    exact foldl_process_names _ _ _
  · rw [hext]
    intro nm hw hnot hmem
    obtain ⟨c, hc, rfl⟩ := List.mem_map.1 hmem
    rcases foldl_process_mem _ _ _ _ hc with h | h
    · exact hnot (List.mem_map_of_mem Cookie.name h)
    · rw [hw] at h; cases h
  · intro nm
    rw [hfuse]
    exact find?_foldl_upsert nm (recognizedCookies parseR resp) jar

/-- The challenge response of scenario 4 of the spec, for the C5 witness. -/
def wafRespC5 : HttpResp :=
  ⟨503, "Imperva", "", ["_incap_ses_123=abc; Path=/".data, "other=zzz".data]⟩

/-- A stale jar entry bearing the same name as the response's recognized
cookie, for the C5 witness's replacement check. -/
def staleC5 : Cookie :=
  ⟨"_incap_ses_123".data, "old".data, ".resy.com".data, "/".data, false, false, none⟩

/-- C5 witness: the extraction theorem applied to a concrete 503 Imperva
response carrying one recognized and one unrecognized `Set-Cookie`, over a
jar holding a stale same-name cookie: the recognized name is present, the
unrecognized one absent, and the lookup yields the freshly parsed cookie
(value `abc`, the attribute loop's case-sensitive `TrimPrefix` leaving
`Path=/` verbatim), not the stale one. -/
theorem C5_extractCookies_witness :
    "_incap_ses_123".data ∈
      (extractCookiesFromResponse (fun _ => none) wafRespC5 [staleC5]).map Cookie.name ∧
    "other".data ∉
      (extractCookiesFromResponse (fun _ => none) wafRespC5 [staleC5]).map Cookie.name ∧
    (extractCookiesFromResponse (fun _ => none) wafRespC5 [staleC5]).find?
        (fun x => decide (x.name = "_incap_ses_123".data)) =
      some ⟨"_incap_ses_123".data, "abc".data, ".resy.com".data, "Path=/".data,
        false, false, none⟩ := by
  have h := C5_extractCookies_spec (fun _ => none) wafRespC5 [staleC5] (by decide)
  exact ⟨h.2.1 ("_incap_ses_123=abc; Path=/".data) (by decide) ("_incap_ses_123".data)
      (by decide) (by decide),
    h.2.2.2.1 ("other".data) (by decide) (by decide),
    (h.2.2.2.2.2.2.2 ("_incap_ses_123".data)).trans (by decide)⟩

/-! ## Claim C3: slot selection inside Reserve

The FIND response's slots are modelled post-JSON-decoding: a slot carries
the numeric fields its `date.start` string splits into (absent when the
string does not have the `"YYYY-MM-DD HH:MM:SS"` shape — the seconds field
is carried verbatim because the code discards it and re-parses with `:00`),
and the `config` object's optional `type` and `token` strings. -/

structure SlotStart where
  y : Int
  m : Int
  d : Int
  hh : Int
  mm : Int
  ss : List Char
  deriving DecidableEq

structure SlotConfig where
  ctype : Option (List Char)
  token : Option (List Char)
  deriving DecidableEq

structure Slot where
  start : Option SlotStart
  config : Option SlotConfig
  deriving DecidableEq

def isLeapYear (y : Int) : Bool :=
  (y.emod 4 = 0 ∧ y.emod 100 ≠ 0) ∨ y.emod 400 = 0

def daysInMonth (y m : Int) : Int :=
  if m = 1 ∨ m = 3 ∨ m = 5 ∨ m = 7 ∨ m = 8 ∨ m = 10 ∨ m = 12 then 31
  else if m = 4 ∨ m = 6 ∨ m = 9 ∨ m = 11 then 30
  else if isLeapYear y then 29
  else 28

/-- `time.ParseInLocation("2006-01-02 15:04:05", ·, nyc)` succeeds exactly
when the components are in range. -/
def validStart (s : SlotStart) : Bool :=
  decide (1 ≤ s.m ∧ s.m ≤ 12 ∧ 1 ≤ s.d ∧ s.d ≤ daysInMonth s.y s.m ∧
    0 ≤ s.hh ∧ s.hh ≤ 23 ∧ 0 ≤ s.mm ∧ s.mm ≤ 59)

/-- The instant `ParseInLocation` produces for a valid slot start (seconds
forced to `00` by the code). -/
def slotTime (s : SlotStart) : Int :=
  goDateUnix nycLoc (civilToUnix s.y s.m s.d s.hh s.mm 0)

/-- The (hour, minute) of instant `t` on a New York wall clock
(`t.In(nyc).Hour()` / `.Minute()`). -/
def nyHourMin (t : Int) : Int × Int :=
  ((localSecOfDay nycLoc t).ediv 3600, ((localSecOfDay nycLoc t).ediv 60).emod 60)

/-- `slotTime.Hour() == currentTimeNYC.Hour() && slotTime.Minute() == ...`. -/
def timeMatchB (t cur : Int) : Bool :=
  decide ((nyHourMin t).1 = (nyHourMin cur).1 ∧ (nyHourMin t).2 = (nyHourMin cur).2)

/-- How the inner slot loop classifies one slot for requested instant `cur`
and table preference `pref` (`none` when no preference): `none` when the
slot is skipped (`continue`) — unparseable start, wrong New York calendar
day, missing config, or preference mismatch — else
`some (exact match?, |slotTime − cur|)`. -/
def slotInfo (pref : Option (List Char)) (cur : Int) (s : Slot) : Option (Bool × Int) :=
  match s.start with
  | none => none
  | some st =>
      if validStart st then
        if localDay nycLoc (slotTime st) = localDay nycLoc cur then
          match s.config with
          | none => none
          | some cfg =>
              match pref with
              | some p =>
                  match cfg.ctype with
                  | none => none
                  | some ty =>
                      if strContainsSub (goToLower ty) p then
                        some (timeMatchB (slotTime st) cur, |slotTime st - cur|)
                      else none
              | none => some (timeMatchB (slotTime st) cur, |slotTime st - cur|)
        else none
      else none

def slotExact (pref : Option (List Char)) (cur : Int) (s : Slot) : Bool :=
  match slotInfo pref cur s with
  | some (true, _) => true
  | _ => false

/-- The slot loop of `Reserve` (lines 788–898): iterate the indexed slots,
return the first exact match immediately (`break`), otherwise track the
eligible slot with the smallest time difference; `bd` starts at 31 minutes
and a slot is eligible when its difference is at most 30 minutes
(`maxTimeDiff`) and beats the current best. -/
def selectSlotAux (pref : Option (List Char)) (cur : Int) :
    List (Nat × Slot) → Option Nat → Int → Option Nat
  | [], best, _ => best
  | p :: rest, best, bd =>
      match slotInfo pref cur p.2 with
      | none => selectSlotAux pref cur rest best bd
      | some (true, _) => some p.1
      | some (false, d) =>
          if d ≤ 1800 ∧ d < bd then selectSlotAux pref cur rest (some p.1) d
          else selectSlotAux pref cur rest best bd

/-- The index of the slot one pass of the loop selects (`bestSlotIndex`,
`none` for `-1`). -/
def selectSlot (pref : Option (List Char)) (cur : Int) (slots : List Slot) : Option Nat :=
  selectSlotAux pref cur slots.enum none (31 * 60)

/-- Outcome of the DETAIL/DETAIL-parse/BOOK phase for a selected slot:
booked (the call returns the slot instant), a fatal error (returned
immediately), or a failure that falls through to the next candidate
iteration. -/
inductive AttemptOutcome where
  | success (t : Int)
  | fatal (e : ResyError)
  | nextCandidate

/-- The outer iteration domain: one "any" iteration when no table types are
given, else one per table type (`k < len(TableTypes) || (!hasPref && k == 0)`). -/
def prefsIterations (prefs : List (List Char)) : List (Option (List Char)) :=
  match prefs with
  | [] => [none]
  | _ => prefs.map some

/-- The inner loop over reservation times for one table-type iteration:
select a slot; when found, the booking phase (`oracle k i j`) either ends
the call or falls through. Returns `none` when every iteration fell
through. -/
def reserveInner (oracle : Nat → Nat → Nat → AttemptOutcome) (slots : List Slot)
    (k : Nat) (pref : Option (List Char)) :
    List (Nat × Int) → Option (Except ResyError Int)
  | [] => none
  | q :: rest =>
      match selectSlot pref q.2 slots with
      | none => reserveInner oracle slots k pref rest
      | some j =>
          match oracle k q.1 j with
          | AttemptOutcome.success t => some (Except.ok t)
          | AttemptOutcome.fatal e => some (Except.error e)
          | AttemptOutcome.nextCandidate => reserveInner oracle slots k pref rest

def reserveOuter (oracle : Nat → Nat → Nat → AttemptOutcome) (slots : List Slot)
    (times : List Int) : List (Nat × Option (List Char)) → Except ResyError Int
  | [] => Except.error ResyError.noTable
  | q :: rest =>
      match reserveInner oracle slots q.1 q.2 times.enum with
      | some r => r
      | none => reserveOuter oracle slots times rest

/-- The slot-selection phase of `Reserve`: the empty-times guard
(`ErrTimeNull`), then the candidate iterations; when no iteration books or
fails fatally, `ErrNoTable`. -/
def reserveSlotPhase (oracle : Nat → Nat → Nat → AttemptOutcome) (slots : List Slot)
    (prefs : List (List Char)) (times : List Int) : Except ResyError Int :=
  if times.isEmpty then Except.error ResyError.timeNull
  else reserveOuter oracle slots times (prefsIterations prefs).enum

theorem slotExact_true_iff (pref : Option (List Char)) (cur : Int) (s : Slot) :
    slotExact pref cur s = true ↔ ∃ d, slotInfo pref cur s = some (true, d) := by
  unfold slotExact
  rcases h : slotInfo pref cur s with _ | ⟨b, d⟩
  · simp
  · cases b <;> simp

/-- The first exact match is selected; the fallback tracking never overrides
it. -/
theorem selectSlotAux_exact (pref : Option (List Char)) (cur : Int)
    (l : List (Nat × Slot)) :
    ∀ (best : Option Nat) (bd : Int) (q : Nat × Slot),
      l.find? (fun p => slotExact pref cur p.2) = some q →
      selectSlotAux pref cur l best bd = some q.1 := by
  induction l with
  | nil => intro best bd q h; simp [List.find?] at h
  | cons p rest ih =>
      intro best bd q h
      by_cases he : slotExact pref cur p.2 = true
      · have hpos : List.find? (fun x => slotExact pref cur x.2) (p :: rest) = some p :=
          List.find?_cons_of_pos rest he
        rw [hpos] at h
        obtain rfl : p = q := by simpa using h
        obtain ⟨d, hd⟩ := (slotExact_true_iff pref cur p.2).1 he
        simp only [selectSlotAux]
        rw [hd]
      · have hneg : List.find? (fun x => slotExact pref cur x.2) (p :: rest) =
            List.find? (fun x => slotExact pref cur x.2) rest :=
          List.find?_cons_of_neg rest (by simpa using he)
        rw [hneg] at h
        have he2 : slotExact pref cur p.2 = false := by
          simpa using he
        simp only [selectSlotAux]
        unfold slotExact at he2
        rcases hsi : slotInfo pref cur p.2 with _ | ⟨b, d⟩
        · exact ih best bd q h
        · cases b
          · dsimp only
            split_ifs
            · exact ih (some p.1) d q h
            · exact ih best bd q h
          · rw [hsi] at he2; simp at he2

/-- Full characterization of the fallback pass when no slot is exact: either
nothing improved on the incoming best (and every eligible difference in the
list is at least the incoming bound), or the closest eligible slot of the
list was selected. -/
theorem selectSlotAux_fallback (pref : Option (List Char)) (cur : Int)
    (l : List (Nat × Slot)) :
    ∀ (best : Option Nat) (bd : Int),
      (∀ p ∈ l, slotExact pref cur p.2 = false) →
      (selectSlotAux pref cur l best bd = best ∧
        ∀ p ∈ l, ∀ d2, slotInfo pref cur p.2 = some (false, d2) → d2 ≤ 1800 → bd ≤ d2) ∨
      (∃ q d, q ∈ l ∧ slotInfo pref cur q.2 = some (false, d) ∧
        selectSlotAux pref cur l best bd = some q.1 ∧ d ≤ 1800 ∧ d < bd ∧
        ∀ p ∈ l, ∀ d2, slotInfo pref cur p.2 = some (false, d2) → d2 ≤ 1800 → d ≤ d2) := by
  induction l with
  | nil => intro best bd _; left; exact ⟨rfl, by simp⟩
  | cons p rest ih =>
      intro best bd hne
      have hep : slotExact pref cur p.2 = false := hne p (List.mem_cons_self p rest)
      have hner : ∀ q ∈ rest, slotExact pref cur q.2 = false :=
        fun q hq => hne q (List.mem_cons_of_mem p hq)
      simp only [selectSlotAux]
      rcases hsi : slotInfo pref cur p.2 with _ | ⟨b, d0⟩
      · rcases ih best bd hner with ⟨h1, h2⟩ | ⟨q, d, hq, hd, hr, hd18, hdb, hmin⟩
        · left
          refine ⟨h1, fun x hx d2 hx2 hx3 => ?_⟩
          rcases List.mem_cons.1 hx with rfl | hx4
          · rw [hsi] at hx2; cases hx2
          · exact h2 x hx4 d2 hx2 hx3
        · right
          refine ⟨q, d, List.mem_cons_of_mem p hq, hd, hr, hd18, hdb,
            fun x hx d2 hx2 hx3 => ?_⟩
          rcases List.mem_cons.1 hx with rfl | hx4
          · rw [hsi] at hx2; cases hx2
          · exact hmin x hx4 d2 hx2 hx3
      · cases b
        · dsimp only
          by_cases hcond : d0 ≤ 1800 ∧ d0 < bd
          · rw [if_pos hcond]
            rcases ih (some p.1) d0 hner with ⟨h1, h2⟩ | ⟨q, d, hq, hd, hr, hd18, hdb, hmin⟩
            · right
              refine ⟨p, d0, List.mem_cons_self p rest, hsi, h1, hcond.1, hcond.2,
                fun x hx d2 hx2 hx3 => ?_⟩
              rcases List.mem_cons.1 hx with rfl | hx4
              · rw [hsi] at hx2
                obtain rfl : d0 = d2 := by simpa using hx2
                omega
              · exact h2 x hx4 d2 hx2 hx3
            · right
              refine ⟨q, d, List.mem_cons_of_mem p hq, hd, hr, hd18, by omega,
                fun x hx d2 hx2 hx3 => ?_⟩
              rcases List.mem_cons.1 hx with rfl | hx4
              · rw [hsi] at hx2
                obtain rfl : d0 = d2 := by simpa using hx2
                omega
              · exact hmin x hx4 d2 hx2 hx3
          · rw [if_neg hcond]
            have hd0 : d0 ≤ 1800 → bd ≤ d0 := by omega
            rcases ih best bd hner with ⟨h1, h2⟩ | ⟨q, d, hq, hd, hr, hd18, hdb, hmin⟩
            · left
              refine ⟨h1, fun x hx d2 hx2 hx3 => ?_⟩
              rcases List.mem_cons.1 hx with rfl | hx4
              · rw [hsi] at hx2
                obtain rfl : d0 = d2 := by simpa using hx2
                exact hd0 hx3
              · exact h2 x hx4 d2 hx2 hx3
            · right
              refine ⟨q, d, List.mem_cons_of_mem p hq, hd, hr, hd18, hdb,
                fun x hx d2 hx2 hx3 => ?_⟩
              rcases List.mem_cons.1 hx with rfl | hx4
              · rw [hsi] at hx2
                obtain rfl : d0 = d2 := by simpa using hx2
                have := hd0 hx3
                omega
              · exact hmin x hx4 d2 hx2 hx3
        · exfalso
          unfold slotExact at hep
          rw [hsi] at hep
          simp at hep

theorem mem_of_mem_enum {α : Type} {l : List α} {q : Nat × α} (h : q ∈ l.enum) :
    q.2 ∈ l := by
  have h2 := List.mem_map_of_mem Prod.snd h
  rwa [List.enum_map_snd] at h2

theorem reserveInner_none (oracle : Nat → Nat → Nat → AttemptOutcome) (slots : List Slot)
    (k : Nat) (pref : Option (List Char)) (l : List (Nat × Int))
    (h : ∀ q ∈ l, selectSlot pref q.2 slots = none) :
    reserveInner oracle slots k pref l = none := by
  induction l with
  | nil => rfl
  | cons q rest ih =>
      simp only [reserveInner]
      rw [h q (List.mem_cons_self q rest)]
      exact ih (fun x hx => h x (List.mem_cons_of_mem q hx))

theorem reserveOuter_none (oracle : Nat → Nat → Nat → AttemptOutcome) (slots : List Slot)
    (times : List Int) (l : List (Nat × Option (List Char)))
    (h : ∀ q ∈ l, ∀ x ∈ times.enum, selectSlot q.2 x.2 slots = none) :
    reserveOuter oracle slots times l = Except.error ResyError.noTable := by
  induction l with
  | nil => rfl
  | cons q rest ih =>
      simp only [reserveOuter]
      rw [reserveInner_none oracle slots q.1 q.2 times.enum
        (fun x hx => h q (List.mem_cons_self q rest) x hx)]
      exact ih (fun x hx => h x (List.mem_cons_of_mem q hx))

/-- C3: in the slot selection of `Reserve`, for every candidate slot list
and requested time: an eligible exact (hour, minute) match — the first one —
is selected and the closest-slot fallback never overrides it; otherwise the
slot minimizing |slot − requested| among eligible slots with offset ≤ 30
minutes is selected, so a slot exactly 30 minutes away is selectable while a
slot 31 or more minutes away never is; and when no iteration selects any
slot the call returns `ErrNoTable`. -/
theorem C3_slotSelection_spec (pref : Option (List Char)) (cur : Int)
    (slots : List Slot) :
    (∀ q, slots.enum.find? (fun p => slotExact pref cur p.2) = some q →
      selectSlot pref cur slots = some q.1) ∧
    ((∀ p ∈ slots.enum, slotExact pref cur p.2 = false) →
      (∀ j, selectSlot pref cur slots = some j →
        ∃ q d, q ∈ slots.enum ∧ j = q.1 ∧ slotInfo pref cur q.2 = some (false, d) ∧
          d ≤ 1800 ∧
          ∀ p ∈ slots.enum, ∀ d2, slotInfo pref cur p.2 = some (false, d2) →
            d2 ≤ 1800 → d ≤ d2) ∧
      ((∃ p ∈ slots.enum, ∃ d, slotInfo pref cur p.2 = some (false, d) ∧ d ≤ 1800) →
        selectSlot pref cur slots ≠ none)) ∧
    (∀ (oracle : Nat → Nat → Nat → AttemptOutcome) (prefs : List (List Char))
        (times : List Int), times ≠ [] →
      (∀ pr ∈ prefsIterations prefs, ∀ t ∈ times, selectSlot pr t slots = none) →
      reserveSlotPhase oracle slots prefs times = Except.error ResyError.noTable) := by
  refine ⟨fun q h => selectSlotAux_exact pref cur slots.enum none (31 * 60) q h, ?_, ?_⟩
  · intro hne
    constructor
    · intro j hj
      rcases selectSlotAux_fallback pref cur slots.enum none (31 * 60) hne with
        ⟨h1, _⟩ | ⟨q, d, hq, hd, hr, hd18, _, hmin⟩
      · rw [selectSlot] at hj
        rw [h1] at hj
        cases hj
      · rw [selectSlot] at hj
        rw [hr] at hj
        obtain rfl : q.1 = j := by simpa using hj
        exact ⟨q, d, hq, rfl, hd, hd18, hmin⟩
    · intro ⟨p, hp, d2, hd2, hd2b⟩ hnone
      rcases selectSlotAux_fallback pref cur slots.enum none (31 * 60) hne with
        ⟨h1, h2⟩ | ⟨q, d, hq, hd, hr, _, _, _⟩
      · have := h2 p hp d2 hd2 hd2b
        omega
      · rw [selectSlot] at hnone
        rw [hr] at hnone
        cases hnone
  · intro oracle prefs times hts hsel
    rw [reserveSlotPhase, if_neg (by simpa using hts)]
    refine reserveOuter_none oracle slots times (prefsIterations prefs).enum ?_
    intro q hq x hx
    exact hsel q.2 (mem_of_mem_enum hq) x.2 (mem_of_mem_enum hx)

/-- A 19:00 slot matching the 19:00 NY request exactly, and a 17:00 slot two
hours away, for the C3 witness. -/
def slotExactC3 : Slot :=
  ⟨some ⟨2025, 7, 31, 19, 0, "00".data⟩,
    some ⟨some "Dining Room".data, some "tokA".data⟩⟩

def slotFarC3 : Slot :=
  ⟨some ⟨2025, 7, 31, 17, 0, "00".data⟩,
    some ⟨some "Dining Room".data, some "tokB".data⟩⟩

def curC3 : Int := civilToUnix 2025 7 31 23 0 0

/-- C3 witness: the selection theorem applied to a one-slot list with an
exact 19:00 NY match, and the no-table clause applied to a list whose only
slot is two hours away. -/
theorem C3_slotSelection_witness :
    selectSlot none curC3 [slotExactC3] = some 0 ∧
    reserveSlotPhase (fun _ _ _ => AttemptOutcome.nextCandidate) [slotFarC3] [] [curC3] =
      Except.error ResyError.noTable :=
  ⟨(C3_slotSelection_spec none curC3 [slotExactC3]).1 (0, slotExactC3) (by decide),
    (C3_slotSelection_spec none curC3 [slotFarC3]).2.2
      (fun _ _ _ => AttemptOutcome.nextCandidate) [] [curC3] (by decide) (by decide)⟩

/-! ## Base64 (Go's `encoding/base64` StdEncoding)

Bytes are modelled as `Nat` (< 256). -/

def b64Alphabet : List Char :=
  "ABCDEFGHIJKLMNOPQRSTUVWXYZabcdefghijklmnopqrstuvwxyz0123456789+/".data

def b64Char (i : Nat) : Char := b64Alphabet.getD i 'A'

def b64ValAux : List Char → Char → Nat → Option Nat
  | [], _, _ => none
  | a :: rest, c, i => if a = c then some i else b64ValAux rest c (i + 1)

def b64Val (c : Char) : Option Nat := b64ValAux b64Alphabet c 0

def b64Encode : List Nat → List Char
  | [] => []
  | [a] => [b64Char (a / 4), b64Char (a % 4 * 16), '=', '=']
  | [a, b] => [b64Char (a / 4), b64Char (a % 4 * 16 + b / 16), b64Char (b % 16 * 4), '=']
  | a :: b :: c :: rest =>
      b64Char (a / 4) :: b64Char (a % 4 * 16 + b / 16) ::
        b64Char (b % 16 * 4 + c / 64) :: b64Char (c % 64) :: b64Encode rest

def b64Decode : List Char → Option (List Nat)
  | [] => some []
  | c1 :: c2 :: c3 :: c4 :: rest =>
      if c3 = '=' ∧ c4 = '=' ∧ rest = [] then
        match b64Val c1, b64Val c2 with
        | some s1, some s2 => some [s1 * 4 + s2 / 16]
        | _, _ => none
      else if c4 = '=' ∧ rest = [] then
        match b64Val c1, b64Val c2, b64Val c3 with
        | some s1, some s2, some s3 => some [s1 * 4 + s2 / 16, s2 % 16 * 16 + s3 / 4]
        | _, _, _ => none
      else
        match b64Val c1, b64Val c2, b64Val c3, b64Val c4, b64Decode rest with
        | some s1, some s2, some s3, some s4, some tail =>
            some ((s1 * 4 + s2 / 16) :: (s2 % 16 * 16 + s3 / 4) :: (s3 % 4 * 64 + s4) :: tail)
        | _, _, _, _, _ => none
  | _ => none

theorem b64Val_b64Char : ∀ i, i < 64 → b64Val (b64Char i) = some i := by decide

theorem b64Char_ne_pad : ∀ i, i < 64 → b64Char i ≠ '=' := by decide

theorem b64_roundtrip : ∀ (n : Nat) (l : List Nat), l.length ≤ n →
    (∀ b ∈ l, b < 256) → b64Decode (b64Encode l) = some l := by
  intro n
  induction n with
  | zero =>
      intro l hl _
      obtain rfl : l = [] := List.eq_nil_of_length_eq_zero (by omega)
      rfl
  | succ n ih =>
      intro l hl hb
      match l with
      | [] => rfl
      | [a] =>
          have ha : a < 256 := hb a (by simp)
          rw [b64Encode, b64Decode, if_pos ⟨rfl, rfl, rfl⟩,
            b64Val_b64Char _ (by omega), b64Val_b64Char _ (by omega)]
          dsimp only
          simp only [Option.some.injEq, List.cons.injEq]
          exact ⟨by omega, trivial⟩
      | [a, b] =>
          have ha : a < 256 := hb a (by simp)
          have hbb : b < 256 := hb b (by simp)
          have hne : b64Char (b % 16 * 4) ≠ '=' := b64Char_ne_pad _ (by omega)
          rw [b64Encode, b64Decode, if_neg (by tauto), if_pos ⟨rfl, rfl⟩,
            b64Val_b64Char _ (by omega), b64Val_b64Char _ (by omega),
            b64Val_b64Char _ (by omega)]
          dsimp only
          simp only [Option.some.injEq, List.cons.injEq]
          exact ⟨by omega, by omega, trivial⟩
      | a :: b :: c :: rest =>
          have ha : a < 256 := hb a (by simp)
          have hbb : b < 256 := hb b (by simp)
          have hc : c < 256 := hb c (by simp)
          have hrest : b64Decode (b64Encode rest) = some rest := by
            refine ih rest ?_ (fun x hx => hb x (by simp [hx]))
            simp only [List.length_cons] at hl
            omega
          have hne : b64Char (c % 64) ≠ '=' := b64Char_ne_pad _ (by omega)
          rw [b64Encode, b64Decode, if_neg (by tauto), if_neg (by tauto),
            b64Val_b64Char _ (by omega), b64Val_b64Char _ (by omega),
            b64Val_b64Char _ (by omega), b64Val_b64Char _ (by omega), hrest]
          dsimp only
          simp only [Option.some.injEq, List.cons.injEq]
          exact ⟨by omega, by omega, by omega, trivial⟩


/-! ## Claim C7: the credential-vault cipher (`store/crypto.go`)

AES-GCM itself is stdlib, not repository code; it is modelled as an
abstract AEAD scheme whose `aeadOpen` inverts `seal`, and
`aes.NewCipher`+`cipher.NewGCM` as an abstract map `gcm` from keys to
schemes.  The repository's own logic — the `v1:` version tag, the random
nonce prepended to the ciphertext, the base64 encoding, and their inverses —
is modelled concretely. -/

structure AEADScheme where
  nonceSize : Nat
  aeadSeal : List Nat → List Nat → List Nat
  aeadOpen : List Nat → List Nat → Option (List Nat)
  open_seal : ∀ nonce pt, nonce.length = nonceSize →
    aeadOpen nonce (aeadSeal nonce pt) = some pt

/-- `resyCredentialsEncryptionPrefix`. -/
def encTagV1 : List Char := "v1:".data

/-- `hasEncryptionPrefix`. -/
def hasV1Tag (value : List Char) : Bool := goStartsWith value encTagV1

/-- `encryptString` given the GCM scheme for the key and the random nonce
drawn from `crypto/rand`. -/
def encryptString (sch : AEADScheme) (nonce : List Nat) (plaintext : List Nat) : List Char :=
  encTagV1 ++ b64Encode (nonce ++ sch.aeadSeal nonce plaintext)

/-- `decryptString` given the GCM scheme for the key. -/
def decryptString (sch : AEADScheme) (value : List Char) : Option (List Nat) :=
  if hasV1Tag value then
    match b64Decode (goTrimLeading value encTagV1) with
    | none => none
    | some raw =>
        if raw.length < sch.nonceSize then none
        else sch.aeadOpen (raw.take sch.nonceSize) (raw.drop sch.nonceSize)
  else none

/-- `encryptString` with the cipher construction from the key (`gcm` models
`aes.NewCipher` + `cipher.NewGCM`; `none` is a key-size error). -/
def encryptStringK (gcm : List Nat → Option AEADScheme) (nonce plaintext key : List Nat) :
    Option (List Char) :=
  (gcm key).map (fun sch => encryptString sch nonce plaintext)

def decryptStringK (gcm : List Nat → Option AEADScheme) (value : List Char)
    (key : List Nat) : Option (List Nat) :=
  (gcm key).bind (fun sch => decryptString sch value)

theorem goStartsWith_append (pre s : List Char) : goStartsWith (pre ++ s) pre = true := by
  induction pre with
  | nil => cases s <;> rfl
  | cons c rest ih => simp [goStartsWith, ih]

theorem goTrimLeading_append (pre s : List Char) : goTrimLeading (pre ++ s) pre = s := by
  rw [goTrimLeading, if_pos (goStartsWith_append pre s)]
  simpa using List.drop_left pre s

/-- C7: for every plaintext and every 32-byte key (any key the cipher
construction accepts), decrypting the encryption returns the plaintext, and
the stored value is the literal `v1:` tag followed by the base64 encoding of
nonce-plus-AEAD-ciphertext. -/
theorem C7_encrypt_decrypt_roundtrip (gcm : List Nat → Option AEADScheme)
    (key nonce plaintext : List Nat) (sch : AEADScheme)
    (hkey : key.length = 32) (hg : gcm key = some sch)
    (hnl : nonce.length = sch.nonceSize)
    (hnb : ∀ b ∈ nonce, b < 256)
    (hcb : ∀ b ∈ sch.aeadSeal nonce plaintext, b < 256) :
    encryptStringK gcm nonce plaintext key = some (encryptString sch nonce plaintext) ∧
    decryptStringK gcm (encryptString sch nonce plaintext) key = some plaintext ∧
    encryptString sch nonce plaintext =
      "v1:".data ++ b64Encode (nonce ++ sch.aeadSeal nonce plaintext) := by
  refine ⟨by rw [encryptStringK, hg]; rfl, ?_, rfl⟩
  rw [decryptStringK, hg, Option.some_bind]
  rw [decryptString, encryptString]
  have hv1 : hasV1Tag (encTagV1 ++ b64Encode (nonce ++ sch.aeadSeal nonce plaintext)) = true :=
    goStartsWith_append encTagV1 _
  rw [if_pos hv1]
  rw [goTrimLeading_append]
  rw [b64_roundtrip (nonce ++ sch.aeadSeal nonce plaintext).length _ le_rfl ?hbytes]
  case hbytes =>
    intro b hbmem
    rcases List.mem_append.1 hbmem with h | h
    · exact hnb b h
    · exact hcb b h
  dsimp only
  rw [if_neg (by simp only [List.length_append]; omega)]
  rw [show (nonce ++ sch.aeadSeal nonce plaintext).take sch.nonceSize = nonce from by
    rw [← hnl]; exact List.take_left nonce _]
  rw [show (nonce ++ sch.aeadSeal nonce plaintext).drop sch.nonceSize = sch.aeadSeal nonce plaintext
    from by rw [← hnl]; exact List.drop_left nonce _]
  exact sch.open_seal nonce plaintext hnl

/-- A trivial AEAD scheme (identity cipher) and key schedule, for
instantiating witnesses; it satisfies the AEAD contract. -/
def idScheme : AEADScheme :=
  { nonceSize := 12
    aeadSeal := fun _ p => p
    aeadOpen := fun _ c => some c
    open_seal := fun _ _ _ => rfl }

def idGcm : List Nat → Option AEADScheme :=
  fun k => if k.length = 32 then some idScheme else none

def keyC7 : List Nat := List.replicate 32 0

def nonceC7 : List Nat := List.replicate 12 7

/-- C7 witness: the roundtrip theorem at the identity scheme, a 32-byte key,
a 12-byte nonce and the plaintext bytes `[104, 105]`. -/
theorem C7_encrypt_decrypt_witness :
    decryptStringK idGcm (encryptString idScheme nonceC7 [104, 105]) keyC7 =
      some [104, 105] :=
  (C7_encrypt_decrypt_roundtrip idGcm keyC7 nonceC7 [104, 105] idScheme (by decide)
    (by rfl) (by decide) (by decide) (by decide)).2.1


/-! ## Claim C8: credential reads and legacy re-encryption
(`store/resy_credentials.go`)

Strings that cross the byte boundary (auth tokens, formatted payment ids)
are ASCII; `strToBytes`/`bytesToStr` convert between the two models. -/

def strToBytes (s : List Char) : List Nat := s.map Char.toNat

def bytesToStr (b : List Nat) : List Char := b.map Char.ofNat

/-- `strconv.FormatInt(x, 10)`. -/
def intToDecimal (x : Int) : List Char := (toString x).data

def digitVal (c : Char) : Option Nat :=
  if '0' ≤ c ∧ c ≤ '9' then some (c.toNat - '0'.toNat) else none

def parseDigitsAux : List Char → Nat → Option Nat
  | [], acc => some acc
  | c :: rest, acc =>
      match digitVal c with
      | none => none
      | some d => parseDigitsAux rest (acc * 10 + d)

/-- `strconv.ParseInt(s, 10, 64)`: an optional sign, a nonempty digit
string, and an int64 range check. -/
def goParseInt64 (s : List Char) : Option Int :=
  match s with
  | [] => none
  | '+' :: rest =>
      if rest = [] then none
      else (parseDigitsAux rest 0).bind
        (fun v => if v ≤ 9223372036854775807 then some (v : Int) else none)
  | '-' :: rest =>
      if rest = [] then none
      else (parseDigitsAux rest 0).bind
        (fun v => if v ≤ 9223372036854775808 then some (-(v : Int)) else none)
  | _ =>
      (parseDigitsAux s 0).bind
        (fun v => if v ≤ 9223372036854775807 then some (v : Int) else none)

/-- A decoded JSON value, as far as the credential record cares. -/
inductive JsonVal where
  | str (s : List Char)
  | num (x : Int)
  | other
  deriving DecidableEq

/-- The unmarshalled credential record (`map[string]interface{}`), restricted
to the keys the code reads. -/
structure RawCredRecord where
  authToken : Option JsonVal
  paymentMethodID : Option JsonVal
  clerkUserID : Option JsonVal
  deriving DecidableEq

structure ResyCredentials where
  clerkUserID : List Char
  authToken : List Char
  paymentMethodID : Int
  deriving DecidableEq

/-- The `resyCredentialsRecord` written back to the store. -/
structure StoredCredRecord where
  clerkUserID : List Char
  authToken : List Char
  paymentMethodID : List Char
  deriving DecidableEq

inductive CredError where
  | keyMissing
  | authMissing
  | paymentMissing
  | decryptError
  | invalidPayment
  deriving DecidableEq

/-- `coercePaymentMethodID`: a nonempty string is passed through, a float64
is formatted (`int64(v)` then `FormatInt`), anything else is an error. -/
def coercePaymentMethodID : JsonVal → Option (List Char)
  | JsonVal.str s => if s = [] then none else some s
  | JsonVal.num x => some (intToDecimal x)
  | JsonVal.other => none

/-- `SaveResyCredentials`: configuration-key check, then both fields
encrypted (`none` when the cipher construction fails; the Redis `Set` itself
is outside the model). -/
def saveResyCredentials (gcm : List Nat → Option AEADScheme) (key : List Nat)
    (nonce1 nonce2 : List Nat) (creds : ResyCredentials) : Option StoredCredRecord :=
  if key = [] then none
  else
    match gcm key with
    | none => none
    | some sch =>
        some { clerkUserID := creds.clerkUserID
               authToken := encryptString sch nonce1 (strToBytes creds.authToken)
               paymentMethodID :=
                 encryptString sch nonce2 (strToBytes (intToDecimal creds.paymentMethodID)) }

/-- The per-field resolution of `GetResyCredentials`: a `v1:`-prefixed value
is decrypted (an error of the cipher construction or of `decryptString` is
returned unchanged), an unprefixed value is passed through as legacy
plaintext and marks the record for re-encryption (the `Bool`). -/
def resolveCredField (gcm : List Nat → Option AEADScheme) (key : List Nat)
    (v : List Char) : Except CredError (List Char × Bool) :=
  if hasV1Tag v then
    match gcm key with
    | none => Except.error CredError.decryptError
    | some sch =>
        match decryptString sch v with
        | none => Except.error CredError.decryptError
        | some pt => Except.ok (bytesToStr pt, false)
  else Except.ok (v, true)

/-- The observable store writes of a credential read: the re-encryption
attempt (whose own failure the code only logs). -/
inductive CredEvent where
  | reencrypt (stored : Option StoredCredRecord)
  deriving DecidableEq

/-- `GetResyCredentials`: key check, field extraction and validation, the
two per-field resolutions, payment-id parse, clerk-id resolution, and the
conditional re-encryption write-back.  The result never depends on the
write-back's outcome. -/
def getResyCredentials (gcm : List Nat → Option AEADScheme) (key : List Nat)
    (nonce1 nonce2 : List Nat) (clerkUserID : List Char) (raw : RawCredRecord) :
    Except CredError ResyCredentials × List CredEvent :=
  if key = [] then (Except.error CredError.keyMissing, [])
  else
    match raw.authToken with
    | some (JsonVal.str a) =>
        if a = [] then (Except.error CredError.authMissing, [])
        else
          match raw.paymentMethodID with
          | none => (Except.error CredError.paymentMissing, [])
          | some pv =>
              match coercePaymentMethodID pv with
              | none => (Except.error CredError.paymentMissing, [])
              | some praw =>
                  match resolveCredField gcm key a with
                  | Except.error e => (Except.error e, [])
                  | Except.ok (authTok, re1) =>
                      match resolveCredField gcm key praw with
                      | Except.error e => (Except.error e, [])
                      | Except.ok (payTok, re2) =>
                          match goParseInt64 payTok with
                          | none => (Except.error CredError.invalidPayment, [])
                          | some pid =>
                              let resolvedID :=
                                match raw.clerkUserID with
                                | some (JsonVal.str c) => if c = [] then clerkUserID else c
                                | _ => clerkUserID
                              let creds : ResyCredentials :=
                                ⟨resolvedID, authTok, pid⟩
                              if re1 ∨ re2 then
                                (Except.ok creds,
                                  [CredEvent.reencrypt
                                    (saveResyCredentials gcm key nonce1 nonce2 creds)])
                              else (Except.ok creds, [])
    | _ => (Except.error CredError.authMissing, [])

/-- C8: a stored credential record whose auth token or payment value lacks
the `v1:` tag is read successfully, returning the stored plaintext values;
the record is re-encrypted and written back with `v1:`-tagged ciphertexts;
and a failing write-back (here: the cipher construction failing) leaves the
returned credentials untouched — the result component never depends on the
write-back outcome. -/
theorem C8_legacy_migration (gcm : List Nat → Option AEADScheme)
    (key nonce1 nonce2 : List Nat) (clerkUserID a praw : List Char) (pid : Int)
    (raw : RawCredRecord) (hkey : key ≠ [])
    (hauth : raw.authToken = some (JsonVal.str a)) (ha : a ≠ [])
    (hpay : raw.paymentMethodID = some (JsonVal.str praw)) (hpraw : praw ≠ [])
    (hclerk : raw.clerkUserID = none)
    (hnp1 : hasV1Tag a = false) (hnp2 : hasV1Tag praw = false)
    (hpid : goParseInt64 praw = some pid) :
    (getResyCredentials gcm key nonce1 nonce2 clerkUserID raw).1 =
      Except.ok ⟨clerkUserID, a, pid⟩ ∧
    (∀ sch, gcm key = some sch →
      (getResyCredentials gcm key nonce1 nonce2 clerkUserID raw).2 =
        [CredEvent.reencrypt (some
          ⟨clerkUserID, encryptString sch nonce1 (strToBytes a),
            encryptString sch nonce2 (strToBytes (intToDecimal pid))⟩)] ∧
      hasV1Tag (encryptString sch nonce1 (strToBytes a)) = true ∧
      hasV1Tag (encryptString sch nonce2 (strToBytes (intToDecimal pid))) = true) ∧
    (gcm key = none →
      (getResyCredentials gcm key nonce1 nonce2 clerkUserID raw).2 =
        [CredEvent.reencrypt none]) := by
  have hres1 : resolveCredField gcm key a = Except.ok (a, true) := by
    unfold resolveCredField
    rw [if_neg (by rw [hnp1]; exact Bool.false_ne_true)]
  have hres2 : resolveCredField gcm key praw = Except.ok (praw, true) := by
    unfold resolveCredField
    rw [if_neg (by rw [hnp2]; exact Bool.false_ne_true)]
  have h1 : getResyCredentials gcm key nonce1 nonce2 clerkUserID raw =
      (Except.ok ⟨clerkUserID, a, pid⟩,
        [CredEvent.reencrypt
          (saveResyCredentials gcm key nonce1 nonce2 ⟨clerkUserID, a, pid⟩)]) := by
    unfold getResyCredentials
    rw [if_neg hkey, hauth]
    dsimp only
    rw [if_neg ha, hpay]
    dsimp only
    rw [show coercePaymentMethodID (JsonVal.str praw) = some praw from by
      unfold coercePaymentMethodID; dsimp only; rw [if_neg hpraw]]
    dsimp only
    rw [hres1]
    dsimp only
    rw [hres2]
    dsimp only
    rw [hpid]
    dsimp only
    rw [hclerk]
    dsimp only
    rw [if_pos (Or.inl rfl)]
  refine ⟨by rw [h1], ?_, ?_⟩
  · intro sch hg
    rw [h1]
    dsimp only
    unfold saveResyCredentials
    rw [if_neg hkey, hg]
    dsimp only
    exact ⟨rfl, goStartsWith_append encTagV1 _, goStartsWith_append encTagV1 _⟩
  · intro hg
    rw [h1]
    dsimp only
    unfold saveResyCredentials
    rw [if_neg hkey, hg]

/-- The legacy plaintext record of scenario 5 of the spec, for the C8
witness. -/
def rawC8 : RawCredRecord :=
  ⟨some (JsonVal.str "plainauth".data), some (JsonVal.str "42".data), none⟩

/-- C8 witness: the migration theorem applied to a concrete plaintext
record under the identity scheme. -/
theorem C8_legacy_migration_witness :
    (getResyCredentials idGcm keyC7 nonceC7 nonceC7 "user1".data rawC8).1 =
      Except.ok ⟨"user1".data, "plainauth".data, 42⟩ ∧
    hasV1Tag (encryptString idScheme nonceC7 (strToBytes ("plainauth".data))) = true := by
  have h := C8_legacy_migration idGcm keyC7 nonceC7 nonceC7 ("user1".data)
    ("plainauth".data) ("42".data) 42 rawC8 (by decide) rfl (by decide) rfl (by decide)
    rfl (by decide) (by decide) (by decide)
  exact ⟨h.1, (h.2.1 idScheme rfl).2.1⟩

/-! ## Claim C6: the scheduler deletes after one attempt

The reservation-queue store (`SaveReservation`, `GetNextReservation`,
`DeleteReservation` of `store/reservations.go`) is not among the provided
sources — only its tests and its callers are.  `getNextReservation` and
`deleteReservation` below are therefore modelled from the spec.  The
scheduler loop itself (`handleScheduledReservations` in `main.go`) is
modelled from the source. -/

/-- `store.ScheduledReservation` (fields the scheduler reads). -/
structure SchedReservation where
  id : String
  venueID : Int
  reservationTime : Int
  partySize : Int
  tablePreferences : List (List Char)
  authToken : List Char
  paymentMethodID : Int
  clerkUserID : List Char
  runTime : Int
  deriving DecidableEq

def resLess (x y : SchedReservation) : Bool :=
  decide (x.runTime < y.runTime ∨ (x.runTime = y.runTime ∧ x.id < y.id))

/-- Modelled from the spec: `GetNextReservation` (`peek_next`) returns the
entry with the smallest run-time score in the sorted set (`none` on an empty
queue); `store/reservations.go` is not in the provided sources. -/
def getNextReservation : List SchedReservation → Option SchedReservation
  | [] => none
  | r :: rest =>
      match getNextReservation rest with
      | none => some r
      | some m => some (if resLess m r then m else r)

/-- Modelled from the spec: `DeleteReservation` removes the entry with the
given id from all queue structures and is idempotent;
`store/reservations.go` is not in the provided sources. -/
def deleteReservation (q : List SchedReservation) (id : String) : List SchedReservation :=
  q.filter (fun r => r.id ≠ id)

/-- Observable actions of one scheduler iteration. -/
inductive SchedEvent where
  | attemptRes (id : String)
  | deleteRes (id : String)
  | sleep
  deriving DecidableEq

/-- Inputs one iteration of `handleScheduledReservations` consumes: the
clock, whether `GetResyCredentials` succeeds (for Clerk-owned entries), and
whether the upstream `Reserve` call succeeds. -/
structure SchedOracle where
  now : Int
  credsOk : Bool
  reserveOk : Bool

/-- One iteration of `handleScheduledReservations`: peek; sleep when empty
or not yet due; for a Clerk entry whose credentials cannot be fetched,
delete without attempting; otherwise attempt the booking and delete the
entry regardless of the attempt's outcome. -/
def schedulerStep (o : SchedOracle) (q : List SchedReservation) :
    List SchedReservation × List SchedEvent :=
  match getNextReservation q with
  | none => (q, [SchedEvent.sleep])
  | some res =>
      if o.now < res.runTime then (q, [SchedEvent.sleep])
      else if res.clerkUserID ≠ [] ∧ o.credsOk = false then
        (deleteReservation q res.id, [SchedEvent.deleteRes res.id])
      else
        (deleteReservation q res.id,
          [SchedEvent.attemptRes res.id, SchedEvent.deleteRes res.id])

def schedulerRun (os : List SchedOracle) (q : List SchedReservation) : List SchedEvent :=
  match os with
  | [] => []
  | o :: rest => (schedulerStep o q).2 ++ schedulerRun rest ((schedulerStep o q).1)

theorem getNextReservation_mem {q : List SchedReservation} {r : SchedReservation}
    (h : getNextReservation q = some r) : r ∈ q := by
  induction q with
  | nil => cases h
  | cons x rest ih =>
      rw [getNextReservation] at h
      cases hr : getNextReservation rest with
      | none =>
          rw [hr] at h
          obtain rfl : x = r := by simpa using h
          exact List.mem_cons_self x rest
      | some m =>
          rw [hr] at h
          dsimp only at h
          by_cases hl : resLess m x = true
          · rw [if_pos hl] at h
            obtain rfl : m = r := by simpa using h
            exact List.mem_cons_of_mem x (ih hr)
          · rw [if_neg hl] at h
            obtain rfl : x = r := by simpa using h
            exact List.mem_cons_self x rest

theorem deleteReservation_not_mem (q : List SchedReservation) (i : String) :
    i ∉ (deleteReservation q i).map SchedReservation.id := by
  intro h
  obtain ⟨r, hr, hid⟩ := List.mem_map.1 h
  have h2 := (List.mem_filter.1 hr).2
  simp only [decide_eq_true_eq] at h2
  exact h2 hid

theorem deleteReservation_ids_sub (q : List SchedReservation) (i : String) (x : String)
    (h : x ∈ (deleteReservation q i).map SchedReservation.id) :
    x ∈ q.map SchedReservation.id := by
  obtain ⟨r, hr, hid⟩ := List.mem_map.1 h
  exact hid ▸ List.mem_map_of_mem SchedReservation.id (List.mem_filter.1 hr).1

theorem deleteReservation_nodup (q : List SchedReservation) (i : String)
    (h : (q.map SchedReservation.id).Nodup) :
    ((deleteReservation q i).map SchedReservation.id).Nodup :=
  ((List.filter_sublist q).map SchedReservation.id).nodup h

theorem schedulerRun_attempt_mem {os : List SchedOracle} {q : List SchedReservation}
    {i : String} (h : SchedEvent.attemptRes i ∈ schedulerRun os q) :
    i ∈ q.map SchedReservation.id := by
  induction os generalizing q with
  | nil => cases h
  | cons o rest ih =>
      rw [schedulerRun] at h
      rcases List.mem_append.1 h with h1 | h1
      · unfold schedulerStep at h1
        cases hn : getNextReservation q with
        | none => rw [hn] at h1; simp at h1
        | some res =>
            rw [hn] at h1
            dsimp only at h1
            split_ifs at h1
            · simp at h1
            · simp at h1
            · simp only [List.mem_cons, List.not_mem_nil, or_false] at h1
              rcases h1 with h1 | h1
              · obtain rfl : res.id = i := by
                  cases h1
                  rfl
                exact List.mem_map_of_mem SchedReservation.id (getNextReservation_mem hn)
              · cases h1
      · have h2 := ih h1
        unfold schedulerStep at h2
        cases hn : getNextReservation q with
        | none => rw [hn] at h2; exact h2
        | some res =>
            rw [hn] at h2
            dsimp only at h2
            split_ifs at h2
            · exact h2
            · exact deleteReservation_ids_sub q res.id i h2
            · exact deleteReservation_ids_sub q res.id i h2

/-- C6: (i) whenever an iteration attempts a reservation, its events are
exactly the attempt followed by the deletion of the same entry, and the
entry is gone from the queue afterwards; (ii) the step is identical whether
the upstream attempt succeeds or fails; (iii) over any run from a queue
with distinct ids, no reservation is ever attempted twice. -/
theorem C6_scheduler_one_shot :
    (∀ (o : SchedOracle) (q : List SchedReservation) (i : String),
      SchedEvent.attemptRes i ∈ (schedulerStep o q).2 →
      (schedulerStep o q).2 = [SchedEvent.attemptRes i, SchedEvent.deleteRes i] ∧
      i ∉ (schedulerStep o q).1.map SchedReservation.id) ∧
    (∀ (n : Int) (c : Bool) (q : List SchedReservation),
      schedulerStep ⟨n, c, true⟩ q = schedulerStep ⟨n, c, false⟩ q) ∧
    (∀ (os : List SchedOracle) (q : List SchedReservation),
      (q.map SchedReservation.id).Nodup →
      ∀ i, (schedulerRun os q).count (SchedEvent.attemptRes i) ≤ 1) := by
  have hstep : ∀ (o : SchedOracle) (q : List SchedReservation) (i : String),
      SchedEvent.attemptRes i ∈ (schedulerStep o q).2 →
      (schedulerStep o q).2 = [SchedEvent.attemptRes i, SchedEvent.deleteRes i] ∧
      i ∉ (schedulerStep o q).1.map SchedReservation.id := by
    intro o q i h
    unfold schedulerStep at h ⊢
    cases hn : getNextReservation q with
    | none => rw [hn] at h; simp at h
    | some res =>
        rw [hn] at h
        dsimp only at h ⊢
        split_ifs at h ⊢
        · simp at h
        · simp at h
        · simp only [List.mem_cons, List.not_mem_nil, or_false] at h
          rcases h with h | h
          · obtain rfl : res.id = i := by
              cases h
              rfl
            exact ⟨rfl, deleteReservation_not_mem q res.id⟩
          · cases h
  refine ⟨hstep, ?_, ?_⟩
  · intro n c q
    unfold schedulerStep
    rfl
  · intro os q hnd i
    induction os generalizing q with
    | nil => simp [schedulerRun]
    | cons o rest ih =>
        rw [schedulerRun, List.count_append]
        by_cases hin : SchedEvent.attemptRes i ∈ (schedulerStep o q).2
        · obtain ⟨hev, hgone⟩ := hstep o q i hin
          rw [hev]
          have hnone : SchedEvent.attemptRes i ∉ schedulerRun rest (schedulerStep o q).1 := by
            intro hmem
            exact hgone (schedulerRun_attempt_mem hmem)
          rw [List.count_eq_zero.2 hnone]
          simp [List.count_cons]
        · rw [List.count_eq_zero.2 hin]
          have hnd2 : ((schedulerStep o q).1.map SchedReservation.id).Nodup := by
            unfold schedulerStep
            cases hn : getNextReservation q with
            | none => exact hnd
            | some res =>
                dsimp only
                split_ifs
                · exact hnd
                · exact deleteReservation_nodup q res.id hnd
                · exact deleteReservation_nodup q res.id hnd
          simpa using ih (schedulerStep o q).1 hnd2

/-- A due reservation without a Clerk owner, for the C6 witness. -/
def resC6 : SchedReservation := ⟨"res_1", 89607, 3600, 2, [], "tok".data, 1, [], 0⟩

/-- C6 witness: the one-shot theorem applied to a queue holding one due
reservation, over a two-iteration run. -/
theorem C6_scheduler_one_shot_witness :
    (schedulerStep ⟨0, true, true⟩ [resC6]).2 =
      [SchedEvent.attemptRes "res_1", SchedEvent.deleteRes "res_1"] ∧
    (schedulerRun [⟨0, true, true⟩, ⟨0, true, false⟩] [resC6]).count
      (SchedEvent.attemptRes "res_1") ≤ 1 :=
  ⟨(C6_scheduler_one_shot.1 ⟨0, true, true⟩ [resC6] "res_1" (by decide)).1,
    C6_scheduler_one_shot.2.2 [⟨0, true, true⟩, ⟨0, true, false⟩] [resC6]
      (by decide) "res_1"⟩

/-! ## Claim C9: the `day` parameter of FIND -/

/-- `fmt.Sprintf("%02d", n)` for the month/day fields. -/
def pad2 (n : Int) : List Char :=
  if 0 ≤ n ∧ n < 10 then '0' :: (toString n).data else (toString n).data

/-- The `day` parameter `Reserve` builds (lines 637–654): the first
requested instant converted to the hardcoded `America/New_York` location,
its year via `strconv.Itoa`, month and day zero-padded, joined with `-`. -/
def findDayParam (r : Int) : List Char :=
  let ymd := civilFromDays (localDay nycLoc r)
  (toString ymd.1).data ++ '-' :: pad2 ymd.2.1 ++ '-' :: pad2 ymd.2.2

/-- The spec's words: the reservation instant converted to the venue's local
timezone, its local calendar date formatted `YYYY-MM-DD` with zero-padded
month and day. -/
def localDateStr (loc : GoLocation) (r : Int) : List Char :=
  let ymd := civilFromDays (localDay loc r)
  (toString ymd.1).data ++ '-' :: pad2 ymd.2.1 ++ '-' :: pad2 ymd.2.2

/-- C9, counterexample.  The claim says the `day` parameter is the local
calendar date in the venue's timezone.  The code hardcodes
`America/New_York`: for a venue in `America/Chicago` and the reservation
instant 2025-07-02T04:30Z, the venue-local date is 2025-07-01 but the
parameter sent is 2025-07-02. -/
theorem C9_counterexample :
    loadLocation "America/Chicago" = some chiLoc ∧
    findDayParam (civilToUnix 2025 7 2 4 30 0) = "2025-07-02".data ∧
    localDateStr chiLoc (civilToUnix 2025 7 2 4 30 0) = "2025-07-01".data ∧
    findDayParam (civilToUnix 2025 7 2 4 30 0) ≠
      localDateStr chiLoc (civilToUnix 2025 7 2 4 30 0) := by decide

/-- C9 (amended): for every booking attempt, the `day` parameter of the
FIND request equals the requested reservation instant's local calendar date
in `America/New_York` (hardcoded), formatted `YYYY-MM-DD` with zero-padded
month and day — which is the venue's local date only for venues in the
Eastern zone. -/
theorem C9_findDayParam_amended (r : Int) : findDayParam r = localDateStr nycLoc r := rfl

/-! ## Claim C10: the HTML fallback parser's default release time
(`imperva/venue_scraper.go`)

Go's `regexp` engine is stdlib; `FindStringSubmatch` is abstracted as the
oracle `reMatch pattern input`, returning `none` for no match and the
submatch list (full match first) otherwise. -/

def daysPatterns : List String :=
  [ "(\\d+)\\s*days?\\s*in\\s*advance",
    "book\\s*(?:up\\s*to\\s*)?(\\d+)\\s*days?",
    "(\\d+)\\s*day\\s*booking\\s*window",
    "reservations?\\s*(?:open|available)\\s*(\\d+)\\s*days?" ]

def timePatterns : List String :=
  [ "(?:open|released?|available)\\s*(?:at|@)\\s*(\\d\x7b1,2\x7d):?(\\d\x7b2\x7d)?\\s*(am|pm)?",
    "(\\d\x7b1,2\x7d):?(\\d\x7b2\x7d)?\\s*(am|pm)\\s*(?:daily|every\\s*day)" ]

/-- The days-in-advance loop of `parseHTMLContent`: the first pattern whose
match has a second group that parses to a value in (0, 365] sets the field
and breaks. -/
def parseDaysLoop (reMatch : String → String → Option (List (List Char)))
    (htmlLower : String) : List String → Option Int
  | [] => none
  | pat :: rest =>
      match reMatch pat htmlLower with
      | some (_ :: m1 :: _) =>
          match goParseInt64 m1 with
          | some d =>
              if 0 < d ∧ d ≤ 365 then some d
              else parseDaysLoop reMatch htmlLower rest
          | none => parseDaysLoop reMatch htmlLower rest
      | _ => parseDaysLoop reMatch htmlLower rest

/-- The release-time loop of `parseHTMLContent`: the first pattern with at
least two submatches sets hour/minute (parse errors ignored, yielding 0)
with am/pm adjustment, and breaks. -/
def parseTimeLoop (reMatch : String → String → Option (List (List Char)))
    (htmlLower : String) : List String → Option (Int × Int)
  | [] => none
  | pat :: rest =>
      match reMatch pat htmlLower with
      | some (m0 :: m1 :: ms) =>
          let hour := ((goParseInt64 m1).getD 0)
          let minute :=
            match ms with
            | m2 :: _ => if m2 ≠ [] then (goParseInt64 m2).getD 0 else 0
            | [] => 0
          let isPM : Bool :=
            match ms with
            | _ :: m3 :: _ => decide (m3 = "pm".data)
            | _ => false
          let hour2 :=
            if isPM ∧ hour ≠ 12 then hour + 12
            else if ¬isPM ∧ strContainsSub m0 ("am".data) ∧ hour = 12 then 0
            else hour
          some (hour2, minute)
      | _ => parseTimeLoop reMatch htmlLower rest

/-- `parseHTMLContent`: lower-case the page, extract days-in-advance and the
release time; defaults `release 09:00`, timezone `America/New_York`; error
when no days value was found. -/
def parseHTMLContent (reMatch : String → String → Option (List (List Char)))
    (venueID : Int) (html : String) : Option BookingWindow :=
  match parseDaysLoop reMatch html.toLower daysPatterns with
  | none => none
  | some d =>
      some { venueID := venueID
             daysInAdvance := d
             releaseHour := ((parseTimeLoop reMatch html.toLower timePatterns).map Prod.fst).getD 9
             releaseMinute := ((parseTimeLoop reMatch html.toLower timePatterns).map Prod.snd).getD 0
             timezone := "America/New_York" }

theorem parseTimeLoop_none (reMatch : String → String → Option (List (List Char)))
    (htmlLower : String) (pats : List String)
    (h : ∀ pat ∈ pats, reMatch pat htmlLower = none) :
    parseTimeLoop reMatch htmlLower pats = none := by
  induction pats with
  | nil => rfl
  | cons p rest ih =>
      rw [parseTimeLoop, h p (List.mem_cons_self p rest)]
      exact ih (fun q hq => h q (List.mem_cons_of_mem p hq))

/-- C10: whenever the fallback parser extracts a positive days-in-advance
value but no release-time pattern matches, the returned `BookingWindow`
carries the silent defaults `release_hour = 9`, `release_minute = 0` and
timezone `America/New_York` (and this window is what the run-time
computation is fed). -/
theorem C10_parseHTMLContent_default (reMatch : String → String → Option (List (List Char)))
    (venueID : Int) (html : String) (d : Int)
    (hdays : parseDaysLoop reMatch html.toLower daysPatterns = some d)
    (htime : ∀ pat ∈ timePatterns, reMatch pat html.toLower = none) :
    parseHTMLContent reMatch venueID html =
      some ⟨venueID, d, 9, 0, "America/New_York"⟩ := by
  unfold parseHTMLContent
  rw [hdays, parseTimeLoop_none reMatch html.toLower timePatterns htime]
  rfl

/-- A regex oracle matching only the first days pattern, for the C10
witness. -/
def reMatchC10 : String → String → Option (List (List Char)) :=
  fun pat _ =>
    if pat = "(\\d+)\\s*days?\\s*in\\s*advance" then
      some ["30 days in advance".data, "30".data]
    else none

/-- C10 witness: the default theorem applied to a page whose only match is
"30 days in advance". -/
theorem C10_parseHTMLContent_witness :
    parseHTMLContent reMatchC10 7 "Book up to 30 days in advance" =
      some ⟨7, 30, 9, 0, "America/New_York"⟩ :=
  C10_parseHTMLContent_default reMatchC10 7 "Book up to 30 days in advance" 30
    (by decide) (by decide)

end CinCin
